import Mathlib

/-!
# Word-frequency counter (`Task03.c`): a shallow embedding

The program splits a file into `num_threads` raw byte ranges, lets one worker
per range build a private chained hash table of the words it reads, and folds
the private tables into one global table.

Modelling conventions.

* A file is the list of its bytes (`List Nat`, every byte below 256); a file
  offset (`long` in the source, never negative on the paths modelled here) is
  a `Nat`.
* A word buffer (`char word[256]`, `char *word`) is a list of bytes; the C
  string it holds ends before its first NUL byte (`cstr`).
* A bucket chain (`Entry *` linked through `next`) is the list of its nodes,
  head first; the bucket array is a function from the index to the chain.
* The `int` count of a node is an `Int`; the increment `count++` wraps at 32
  bits (`incrInt`), as the compiled program does.
* The workers share nothing while they run, so running them one after the
  other gives the tables the threads produce.
-/

namespace WordFreq

/-! ## Bytes, `fgetc`, `isspace` -/

/-- The bytes of an ASCII text. -/
def bytes (s : String) : List Nat := s.data.map Char.toNat

/-- The value `fgetc` returns at end of file. -/
def EOF : Int := -1

/-- The call `fgetc(file)` with the read position at `pos`: the byte there, or `EOF`
when `pos` is not below the file size. -/
def fgetc (file : List Nat) (pos : Nat) : Int :=
  match file.get? pos with
  | some b => (b : Int)
  | none => EOF

/-- The C-locale `isspace`: space, `\t`, `\n`, `\v`, `\f`, `\r`. It is false on `EOF`. -/
def isspace (c : Int) : Bool := c == 32 || (9 ≤ c && c ≤ 13)

/-! ## Boundary resolver: `findStart`, `findEnd` -/

/-- The backward loop of `findStart`, `while (pos >= 0) { ... pos--; }`; the argument is
`pos + 1`, so that `0` stands for `pos = -1`, where the loop is left and `0` returned. -/
def findStartScan (file : List Nat) : Nat → Nat
  | 0 => 0
  | pos + 1 => if isspace (fgetc file pos) then pos + 1 else findStartScan file pos

/-- The function `findStart(file, original_start)`. -/
def findStart (file : List Nat) (original_start : Nat) : Nat :=
  if original_start = 0 then 0
  else if isspace (fgetc file (original_start - 1)) then original_start
  else findStartScan file (original_start - 1 + 1)

/-- The forward loop of `findEnd`, `while (pos < file_size) { ... pos++; }`, run for at
most `fuel` iterations. -/
def findEndScan (file : List Nat) (file_size : Nat) : Nat → Nat → Nat
  | 0, _ => file_size
  | fuel + 1, pos =>
    if pos < file_size then
      if isspace (fgetc file pos) then pos else findEndScan file file_size fuel (pos + 1)
    else file_size

/-- The function `findEnd(file, original_end, file_size)`; the loop runs at most
`file_size - original_end` times. -/
def findEnd (file : List Nat) (original_end file_size : Nat) : Nat :=
  if original_end ≥ file_size then file_size
  else findEndScan file file_size (file_size - original_end) original_end

/-! ## Frequency table: `hashFunc`, `add_word`, `mergeHash` -/

/-- The bucket capacity, `#define HASH_TABLE_SIZE 10000000`. -/
@[irreducible] def HASH_TABLE_SIZE : Nat := 10000000

/-- The C string held by a buffer: its bytes before the first NUL. -/
def cstr (buf : List Nat) : List Nat := buf.takeWhile (fun b => b != 0)

/-- The test `strcmp(a, b) == 0`: the two C strings are equal. -/
def strcmp_eq (a b : List Nat) : Bool := cstr a == cstr b

/-- A byte read through `char` (a signed type on the platforms targeted) and widened to
`int`, as in `c = *str++`. -/
def charToInt (b : Nat) : Int := if b < 128 then (b : Int) else (b : Int) - 256

/-- One round `hash = ((hash << 5) + hash) + c` on the 64-bit `unsigned long`. -/
def hashStep (hash : Nat) (b : Nat) : Nat :=
  ((((hash * 32 % 2 ^ 64 + hash) % 2 ^ 64 : Nat) : Int) + charToInt b).emod (2 ^ 64) |>.toNat

/-- The function `hashFunc(str)`: the loop runs over the bytes before the first NUL. -/
def hashFunc (str : List Nat) : Nat :=
  (List.foldl hashStep 5381 (cstr str)) % HASH_TABLE_SIZE

/-- The value an `int` holds once the arithmetic result `x` is stored in it: the 32-bit
two's complement wrap. Signed overflow is undefined in C; the compiled program wraps, and
so does the model. -/
def wrapInt (x : Int) : Int := (x + 2147483648) % 4294967296 - 2147483648

/-- The increment `count++` of an `int`: from 2147483647 it goes to -2147483648. -/
def incrInt (c : Int) : Int := wrapInt (c + 1)

/-- A chain node `Entry`: the word and its `int` count (the `next` pointer is the tail of
the chain the node is in). -/
structure Entry where
  word : List Nat
  count : Int
deriving DecidableEq

/-- The table `HashTable`: `buckets i` is the chain of bucket `i`, head first. Only the
indices below `HASH_TABLE_SIZE` belong to the array. -/
structure HashTable where
  buckets : Nat → List Entry

/-- The function `createHT()`: `calloc` leaves every bucket `NULL`. -/
def createHT : HashTable := { buckets := fun _ => [] }

/-- The `while (entry != NULL)` walk of `add_word` along one chain: `some` of the chain
with the count of the first node holding `word` raised by one (the `return` in the loop),
`none` when the walk falls off the end of the chain. -/
def bumpChain (word : List Nat) : List Entry → Option (List Entry)
  | [] => none
  | entry :: next =>
    if strcmp_eq entry.word word then some ({ entry with count := incrInt entry.count } :: next)
    else (bumpChain word next).map (fun chain => entry :: chain)

/-- The function `add_word(ht, word)`. -/
def add_word (ht : HashTable) (word : List Nat) : HashTable :=
  let index := hashFunc word
  match bumpChain word (ht.buckets index) with
  | some chain => { buckets := Function.update ht.buckets index chain }
  | none =>
    let new_entry : Entry := { word := cstr word, count := 1 }
    { buckets := Function.update ht.buckets index (new_entry :: ht.buckets index) }

/-- The chain of bucket `hashFunc word` when `add_word(ht, word)` returns: the chain with
one count raised, or with a new node holding a copy of `word` (`strdup`) at its head. -/
def chainAfter (word : List Nat) (chain : List Entry) : List Entry :=
  match bumpChain word chain with
  | some bumped => bumped
  | none => { word := cstr word, count := 1 } :: chain

/-- The function `mergeHash(dest, src)` for two distinct tables: for every bucket index in
increasing order and every node of that chain of `src`, `add_word(dest, src_entry->word)`. -/
def mergeHash (dest src : HashTable) : HashTable :=
  (List.range HASH_TABLE_SIZE).foldl
    (fun d i => (src.buckets i).foldl (fun d src_entry => add_word d src_entry.word) d) dest

/-- The tables `dest` and `src` once the call `mergeHash(dest, src)` has returned: the loops
write through `dest` only, in `add_word`, and read `src`. -/
def mergeHashCall (dest src : HashTable) : HashTable × HashTable := (mergeHash dest src, src)

/-- The nodes of a table in the order in which the loops of `main` and `mergeHash` visit
them: bucket by bucket, each chain from its head. -/
def entries (ht : HashTable) : List Entry :=
  (List.range HASH_TABLE_SIZE).flatMap ht.buckets

/-- The lines `"%s: %d"` that the reporting loop of `main` prints for a table. -/
def report (ht : HashTable) : List (List Nat × Int) :=
  (entries ht).map (fun entry => (entry.word, entry.count))

/-- The counter `unique_words` after the reporting loop of `main`. -/
def unique_words (ht : HashTable) : Nat := (entries ht).length

/-- The count a table holds for the word `w`: the counts of the nodes holding `w`, added
up; 0 when no node holds `w`. -/
def count (ht : HashTable) (w : List Nat) : Int :=
  ((entries ht).map (fun entry => if strcmp_eq entry.word w then entry.count else 0)).sum

/-- The number of nodes of a table that hold the word `w`. -/
def nodes (ht : HashTable) (w : List Nat) : Nat :=
  ((entries ht).map (fun entry => if strcmp_eq entry.word w then 1 else 0)).sum

/-- The sum of the counts of all the nodes of a table. -/
def total (ht : HashTable) : Int := ((entries ht).map (fun entry => entry.count)).sum

/-- No count of the table is negative or above `n`. -/
def CountsWithin (ht : HashTable) (n : Nat) : Prop := ∀ w, 0 ≤ count ht w ∧ count ht w ≤ n

/-- The table whose only node holds the C string of `w` with the count `c`, in the bucket of
`w`: the table a worker has built once it has read the word `w` exactly `c` times. -/
def oneNodeTable (w : List Nat) (c : Int) : HashTable :=
  HashTable.mk (Function.update createHT.buckets (hashFunc w) [Entry.mk (cstr w) c])

/-- Every node sits in the bucket of its word's hash. -/
def WellPlaced (ht : HashTable) : Prop :=
  ∀ i, i < HASH_TABLE_SIZE → ∀ entry ∈ ht.buckets i, hashFunc entry.word = i

/-! ## Worker: `fscanf`, `process_chunk` -/

/-- Whether a byte of the file is whitespace for `isspace` and for `fscanf`. -/
def isSpaceByte (b : Nat) : Bool := isspace (b : Int)

/-- One call `fscanf(file, "%255s", word)` (with `width = 255`) on the bytes from the read
position on: leading whitespace is skipped, then at most `width` bytes are taken up to the
next whitespace byte or the end of the file. The result is `none` when the call does not
return 1 (the end of the file comes before any other byte), and else the bytes stored in
`word` with the bytes left after the new read position. -/
def fscanf_s (width : Nat) (input : List Nat) : Option (List Nat × List Nat) :=
  let skipped := input.dropWhile isSpaceByte
  let word := (skipped.takeWhile (fun b => !isSpaceByte b)).take width
  if word = [] then none else some (word, skipped.drop word.length)

/-- The loop `while (fscanf(file, "%255s", word) == 1) add_word(hash_table, word);` run
for at most `fuel` iterations. -/
def scanLoop : Nat → HashTable → List Nat → HashTable
  | 0, ht, _ => ht
  | fuel + 1, ht, input =>
    match fscanf_s 255 input with
    | none => ht
    | some (word, rest) => scanLoop fuel (add_word ht word) rest

/-- The words that the successive calls of `fscanf` in that loop store in `word`. -/
def scanWords : Nat → List Nat → List (List Nat)
  | 0, _ => []
  | fuel + 1, input =>
    match fscanf_s 255 input with
    | none => []
    | some (word, rest) => word :: scanWords fuel rest

/-- The fields `start_offset` and `end_offset` of a `ThreadArg`; the file is the same for
every worker and the table is the result of `process_chunk`. -/
structure ThreadArg where
  start_offset : Nat
  end_offset : Nat
deriving DecidableEq

/-- The function `process_chunk`: the table it stores in `t_arg->hash_table`. Every call
of `fscanf` that returns 1 moves the read position forward, so `file.length + 1`
iterations are enough for the loop to end. `adjusted_end` is computed and not used. -/
def process_chunk (file : List Nat) (t_arg : ThreadArg) : HashTable :=
  let original_start := t_arg.start_offset
  let original_end := t_arg.end_offset
  let file_size := file.length
  let adjusted_start := findStart file original_start
  let _adjusted_end := findEnd file original_end file_size
  let hash_table := createHT
  scanLoop (file.length + 1) hash_table (file.drop adjusted_start)

/-- The words a worker reads: those of the `fscanf` loop from its corrected start. -/
def chunkWords (file : List Nat) (t_arg : ThreadArg) : List (List Nat) :=
  scanWords (file.length + 1) (file.drop (findStart file t_arg.start_offset))

/-! ## Planner and merger: `main` -/

/-- The array `thread_args` that `main` fills: `num_threads` raw ranges of `chunk_size`
bytes, the end of the last one then set to `file_size`. -/
def thread_args (file_size num_threads : Nat) : List ThreadArg :=
  let chunk_size := file_size / num_threads
  let args := (List.range num_threads).map
    (fun i => ({ start_offset := i * chunk_size, end_offset := (i + 1) * chunk_size } : ThreadArg))
  args.modify (fun t_arg => { t_arg with end_offset := file_size }) (num_threads - 1)

/-- The private tables of the workers, in worker order, once every thread is joined. -/
def worker_tables (file : List Nat) (num_threads : Nat) : List HashTable :=
  (thread_args file.length num_threads).map (process_chunk file)

/-- The table `global_ht` of `main` after the merge loop. -/
def global_table (file : List Nat) (num_threads : Nat) : HashTable :=
  (worker_tables file num_threads).foldl mergeHash createHT

/-- The corrected range `[findStart(start), findEnd(end, file_size))` of a raw range. -/
def correctedRange (file : List Nat) (t_arg : ThreadArg) : Nat × Nat :=
  (findStart file t_arg.start_offset, findEnd file t_arg.end_offset file.length)

/-- The number of words of a list that are not among `seen` and occur for the first time
in the list: each such word makes `add_word` allocate a node. -/
def freshWords : List (List Nat) → List (List Nat) → Nat
  | _, [] => 0
  | seen, v :: words =>
    (if seen.any (fun u => strcmp_eq u v) then 0 else 1) + freshWords (v :: seen) words

/-! ## The notions of the specification -/

/-- A token of the file: a maximal run of non-whitespace bytes. -/
def specTokens (file : List Nat) : List (List Nat) :=
  (file.splitOnP isSpaceByte).filter (fun token => token ≠ [])

/-- The offset `t` is the start of a token: the byte there is not whitespace and the byte
before it, if any, is. -/
def isTokenStart (file : List Nat) (t : Nat) : Bool :=
  decide (t < file.length) && !isspace (fgetc file t) && (t == 0 || isspace (fgetc file (t - 1)))

/-- The number of occurrences of the word `w` among a list of words. -/
def occurrences (words : List (List Nat)) (w : List Nat) : Nat :=
  (words.filter (fun v => strcmp_eq v w)).length

/-- The invariant of a frequency table: no two nodes hold the same word, that is, at most
one node holds any given word. -/
def OneNodePerWord (ht : HashTable) : Prop := ∀ w, nodes ht w ≤ 1

/-- The tables the program can build: the result of `createHT`, of `add_word` on such a
table, and of `mergeHash` on two such tables (the table `dest` afterwards). -/
inductive Reachable : HashTable → Prop where
  | create : Reachable createHT
  | add (ht : HashTable) (word : List Nat) : Reachable ht → Reachable (add_word ht word)
  | merge (dest src : HashTable) : Reachable dest → Reachable src →
      Reachable (mergeHash dest src)

/-- The number of distinct words of a list, the words compared as C strings. -/
def distinctWords (words : List (List Nat)) : Nat := ((words.map cstr).toFinset).card

/-- The table has a node that holds exactly the byte string `w`. -/
def holdsWord (ht : HashTable) (w : List Nat) : Prop := ∃ e ∈ entries ht, e.word = w

/-- Every node of the table holds a C string: a copy made by `strdup` has no NUL byte. -/
def StoredCStr (ht : HashTable) : Prop :=
  ∀ i, i < HASH_TABLE_SIZE → ∀ entry ∈ ht.buckets i, cstr entry.word = entry.word

/-! ## Facts about the boundary resolver -/

theorem isspace_EOF : isspace EOF = false := by decide

theorem fgetc_of_le (file : List Nat) (pos : Nat) (h : file.length ≤ pos) :
    fgetc file pos = EOF := by
  unfold fgetc
  rw [List.get?_eq_none.mpr h]

theorem findStartScan_le (file : List Nat) (n : Nat) : findStartScan file n ≤ n := by
  induction n with
  | zero => simp [findStartScan]
  | succ k ih =>
    unfold findStartScan
    split
    · exact le_rfl
    · exact Nat.le_succ_of_le ih

/-- No byte from the result of the backward scan up to its start is whitespace. -/
theorem findStartScan_clear (file : List Nat) (n r : Nat)
    (h1 : findStartScan file n ≤ r) (h2 : r < n) : isspace (fgetc file r) = false := by
  induction n with
  | zero => omega
  | succ k ih =>
    unfold findStartScan at h1
    by_cases hk : isspace (fgetc file k) = true
    · rw [if_pos hk] at h1
      omega
    · rw [if_neg hk] at h1
      by_cases hr : r = k
      · subst hr
        simpa using hk
      · exact ih h1 (by omega)

/-- The backward scan stops right after a whitespace byte, or at 0. -/
theorem findStartScan_stop (file : List Nat) (n : Nat) :
    findStartScan file n = 0 ∨
      (0 < findStartScan file n ∧ isspace (fgetc file (findStartScan file n - 1)) = true) := by
  induction n with
  | zero => left; rfl
  | succ k ih =>
    unfold findStartScan
    by_cases hk : isspace (fgetc file k) = true
    · rw [if_pos hk]
      right
      exact ⟨Nat.succ_pos k, by simpa using hk⟩
    · rw [if_neg hk]
      exact ih

theorem findStart_eq_scan (file : List Nat) (p : Nat) :
    findStart file p = findStartScan file p := by
  unfold findStart
  cases p with
  | zero => simp [findStartScan]
  | succ k =>
    by_cases hk : isspace (fgetc file k) = true
    · simp [findStartScan, hk]
    · simp [hk]

theorem findStart_le (file : List Nat) (p : Nat) : findStart file p ≤ p := by
  rw [findStart_eq_scan]
  exact findStartScan_le file p

theorem findStart_clear (file : List Nat) (p r : Nat)
    (h1 : findStart file p ≤ r) (h2 : r < p) : isspace (fgetc file r) = false := by
  rw [findStart_eq_scan] at h1
  exact findStartScan_clear file p r h1 h2

theorem findStart_stop (file : List Nat) (p : Nat) :
    findStart file p = 0 ∨
      (0 < findStart file p ∧ isspace (fgetc file (findStart file p - 1)) = true) := by
  rw [findStart_eq_scan]
  exact findStartScan_stop file p

/-- The result of `findStart` is determined by the last whitespace byte below `p`. -/
theorem findStart_of_last (file : List Nat) (p q : Nat) (hq : q < p)
    (hws : isspace (fgetc file q) = true)
    (hlast : ∀ r, q < r → r < p → isspace (fgetc file r) = false) :
    findStart file p = q + 1 := by
  have hle := findStart_le file p
  have hclear := findStart_clear file p
  rcases findStart_stop file p with h0 | ⟨hpos, hsp⟩
  · have := hclear q (by omega) hq
    rw [this] at hws
    cases hws
  · by_contra hne
    rcases Nat.lt_or_gt_of_ne hne with hlt | hgt
    · have := hclear q (by omega) hq
      rw [this] at hws
      cases hws
    · have := hlast (findStart file p - 1) (by omega) (by omega)
      rw [this] at hsp
      cases hsp

theorem findStart_of_none (file : List Nat) (p : Nat)
    (hnone : ∀ q, q < p → isspace (fgetc file q) = false) : findStart file p = 0 := by
  rcases findStart_stop file p with h0 | ⟨hpos, hsp⟩
  · exact h0
  · have hle := findStart_le file p
    have := hnone (findStart file p - 1) (by omega)
    rw [this] at hsp
    cases hsp

theorem findEndScan_bounds (file : List Nat) (S : Nat) (fuel pos : Nat) (h : pos ≤ S) :
    pos ≤ findEndScan file S fuel pos ∧ findEndScan file S fuel pos ≤ S := by
  induction fuel generalizing pos with
  | zero => simp [findEndScan, h]
  | succ k ih =>
    unfold findEndScan
    by_cases hlt : pos < S
    · rw [if_pos hlt]
      by_cases hsp : isspace (fgetc file pos) = true
      · rw [if_pos hsp]
        omega
      · rw [if_neg hsp]
        have := ih (pos + 1) hlt
        omega
    · rw [if_neg hlt]
      omega

theorem findEndScan_clear (file : List Nat) (S : Nat) (fuel pos r : Nat)
    (h1 : pos ≤ r) (h2 : r < findEndScan file S fuel pos) (hf : S ≤ pos + fuel) :
    isspace (fgetc file r) = false := by
  induction fuel generalizing pos with
  | zero =>
    simp only [findEndScan] at h2
    omega
  | succ k ih =>
    unfold findEndScan at h2
    by_cases hlt : pos < S
    · rw [if_pos hlt] at h2
      by_cases hsp : isspace (fgetc file pos) = true
      · rw [if_pos hsp] at h2
        omega
      · rw [if_neg hsp] at h2
        by_cases hr : r = pos
        · subst hr
          simpa using hsp
        · exact ih (pos + 1) (by omega) h2 (by omega)
    · rw [if_neg hlt] at h2
      omega

theorem findEndScan_stop (file : List Nat) (S : Nat) (fuel pos : Nat) (hf : S ≤ pos + fuel) :
    findEndScan file S fuel pos = S ∨
      (findEndScan file S fuel pos < S ∧
        isspace (fgetc file (findEndScan file S fuel pos)) = true) := by
  induction fuel generalizing pos with
  | zero => left; rfl
  | succ k ih =>
    unfold findEndScan
    by_cases hlt : pos < S
    · rw [if_pos hlt]
      by_cases hsp : isspace (fgetc file pos) = true
      · rw [if_pos hsp]
        right
        exact ⟨hlt, hsp⟩
      · rw [if_neg hsp]
        exact ih (pos + 1) (by omega)
    · rw [if_neg hlt]
      left; rfl

/-! ## Sums over the bucket array -/

theorem hashFunc_lt (w : List Nat) : hashFunc w < HASH_TABLE_SIZE := by
  unfold hashFunc HASH_TABLE_SIZE
  exact Nat.mod_lt _ (by norm_num)

theorem sum_flatMap (f : Entry → Nat) (b : Nat → List Entry) (l : List Nat) :
    ((l.flatMap b).map f).sum = (l.map (fun i => ((b i).map f).sum)).sum := by
  induction l with
  | nil => simp
  | cons i l ih => simp [List.flatMap_cons, ih]

theorem sum_range_update (g : Nat → Nat) (idx x : Nat) (n : Nat) (h : idx < n) :
    ((List.range n).map (Function.update g idx x)).sum + g idx
      = ((List.range n).map g).sum + x := by
  induction n with
  | zero => omega
  | succ k ih =>
    rw [List.range_succ, List.map_append, List.map_append, List.sum_append, List.sum_append]
    simp only [List.map_cons, List.map_nil, List.sum_cons, List.sum_nil, Nat.add_zero]
    by_cases hk : idx = k
    · subst hk
      have hsame : (List.range idx).map (Function.update g idx x) = (List.range idx).map g := by
        apply List.map_congr_left
        intro i hi
        have : i ≠ idx := by
          have := List.mem_range.mp hi
          omega
        simp [Function.update, this]
      rw [hsame]
      simp [Function.update]
      omega
    · have := ih (by omega)
      have hk2 : Function.update g idx x k = g k := by
        have : k ≠ idx := fun e => hk e.symm
        simp [Function.update, this]
      rw [hk2]
      omega

theorem sum_range_single (g : Nat → Nat) (idx : Nat) (n : Nat) (h : idx < n)
    (hz : ∀ i, i < n → i ≠ idx → g i = 0) : ((List.range n).map g).sum = g idx := by
  induction n with
  | zero => omega
  | succ k ih =>
    rw [List.range_succ, List.map_append, List.sum_append]
    simp only [List.map_cons, List.map_nil, List.sum_cons, List.sum_nil, Nat.add_zero]
    by_cases hk : idx = k
    · subst hk
      have hzero : ((List.range idx).map g).sum = 0 := by
        apply List.sum_eq_zero
        intro y hy
        rcases List.mem_map.mp hy with ⟨i, hi, rfl⟩
        have := List.mem_range.mp hi
        exact hz i (by omega) (by omega)
      omega
    · have h1 := ih (by omega) (fun i hi hne => hz i (by omega) hne)
      have h2 := hz k (by omega) (fun e => hk e.symm)
      omega

/-- Replacing the chain of one bucket changes a sum over the nodes by the difference of
the two chains. -/
theorem entries_update (f : Entry → Nat) (ht : HashTable) (idx : Nat)
    (h : idx < HASH_TABLE_SIZE) (chain : List Entry) :
    ((entries { buckets := Function.update ht.buckets idx chain }).map f).sum
        + ((ht.buckets idx).map f).sum
      = ((entries ht).map f).sum + (chain.map f).sum := by
  unfold entries
  rw [sum_flatMap, sum_flatMap]
  have key := sum_range_update (fun i => ((ht.buckets i).map f).sum) idx (chain.map f).sum
    HASH_TABLE_SIZE h
  have hfun : (fun i => ((Function.update ht.buckets idx chain i).map f).sum)
      = Function.update (fun i => ((ht.buckets i).map f).sum) idx (chain.map f).sum := by
    funext i
    by_cases hi : i = idx
    · subst hi
      simp
    · simp [Function.update, hi]
  simp only [hfun]
  exact key

theorem add_word_eq (ht : HashTable) (word : List Nat) :
    add_word ht word = HashTable.mk (Function.update ht.buckets (hashFunc word)
      (chainAfter word (ht.buckets (hashFunc word)))) := by
  unfold add_word chainAfter
  dsimp only
  cases bumpChain word (ht.buckets (hashFunc word)) <;> rfl

/-- The effect of `add_word` on a sum over the nodes. -/
theorem add_word_sum (f : Entry → Nat) (ht : HashTable) (word : List Nat) :
    ((entries (add_word ht word)).map f).sum + ((ht.buckets (hashFunc word)).map f).sum
      = ((entries ht).map f).sum
        + ((chainAfter word (ht.buckets (hashFunc word))).map f).sum := by
  rw [add_word_eq]
  exact entries_update f ht (hashFunc word) (hashFunc_lt word) _

/-! ## The effect of `add_word` on one chain -/

theorem strcmp_eq_iff (a b : List Nat) : strcmp_eq a b = true ↔ cstr a = cstr b := by
  simp [strcmp_eq]

theorem cstr_cstr (a : List Nat) : cstr (cstr a) = cstr a := by
  unfold cstr
  exact List.takeWhile_idem

theorem hashFunc_congr (a b : List Nat) (h : cstr a = cstr b) : hashFunc a = hashFunc b := by
  unfold hashFunc
  rw [h]

theorem hashFunc_cstr (a : List Nat) : hashFunc (cstr a) = hashFunc a :=
  hashFunc_congr _ _ (cstr_cstr a)

theorem bumpChain_none_iff (v : List Nat) (chain : List Entry) :
    bumpChain v chain = none ↔
      (chain.map (fun e => if strcmp_eq e.word v then 1 else 0)).sum = 0 := by
  induction chain with
  | nil => simp [bumpChain]
  | cons e rest ih =>
    unfold bumpChain
    by_cases he : strcmp_eq e.word v = true
    · simp [he]
    · simp [he, ih]

theorem bumpChain_words (v : List Nat) (chain bumped : List Entry)
    (h : bumpChain v chain = some bumped) :
    bumped.map (fun e => e.word) = chain.map (fun e => e.word) := by
  induction chain generalizing bumped with
  | nil => simp [bumpChain] at h
  | cons e rest ih =>
    unfold bumpChain at h
    by_cases he : strcmp_eq e.word v = true
    · rw [if_pos he] at h
      cases h
      simp
    · rw [if_neg he] at h
      cases hb : bumpChain v rest with
      | none => rw [hb] at h; simp at h
      | some c =>
        rw [hb] at h
        simp only [Option.map_some', Option.some.injEq] at h
        subst h
        simp [ih c hb]

theorem sum_of_words (g : List Nat → Nat) (a b : List Entry)
    (h : a.map (fun e => e.word) = b.map (fun e => e.word)) :
    (a.map (fun e => g e.word)).sum = (b.map (fun e => g e.word)).sum := by
  have ha : a.map (fun e => g e.word) = (a.map (fun e => e.word)).map g := by
    rw [List.map_map]; rfl
  have hb : b.map (fun e => g e.word) = (b.map (fun e => e.word)).map g := by
    rw [List.map_map]; rfl
  rw [ha, hb, h]

theorem chainAfter_nodes (v w : List Nat) (chain : List Entry) :
    ((chainAfter v chain).map (fun e => if strcmp_eq e.word w then 1 else 0)).sum
      = (chain.map (fun e => if strcmp_eq e.word w then 1 else 0)).sum
        + (if strcmp_eq v w = true
            ∧ (chain.map (fun e => if strcmp_eq e.word v then 1 else 0)).sum = 0
          then 1 else 0) := by
  unfold chainAfter
  cases hb : bumpChain v chain with
  | some bumped =>
    have hne : ¬ (chain.map (fun e => if strcmp_eq e.word v then 1 else 0)).sum = 0 := by
      intro h0
      rw [(bumpChain_none_iff v chain).mpr h0] at hb
      cases hb
    have hw := sum_of_words (fun u => if strcmp_eq u w then 1 else 0) bumped chain
      (bumpChain_words v chain bumped hb)
    simp only [hw, hne, and_false, if_false, Nat.add_zero]
  | none =>
    have h0 := (bumpChain_none_iff v chain).mp hb
    have hc : strcmp_eq (cstr v) w = strcmp_eq v w := by
      unfold strcmp_eq
      rw [cstr_cstr]
    simp only [List.map_cons, List.sum_cons, hc, h0, and_true]
    omega

theorem chainAfter_length (v : List Nat) (chain : List Entry) :
    ((chainAfter v chain).map (fun _ => 1)).sum
      = (chain.map (fun _ => 1)).sum
        + (if (chain.map (fun e => if strcmp_eq e.word v then 1 else 0)).sum = 0
          then 1 else 0) := by
  unfold chainAfter
  cases hb : bumpChain v chain with
  | some bumped =>
    have hne : ¬ (chain.map (fun e => if strcmp_eq e.word v then 1 else 0)).sum = 0 := by
      intro h0
      rw [(bumpChain_none_iff v chain).mpr h0] at hb
      cases hb
    have hw := sum_of_words (fun _ => 1) bumped chain (bumpChain_words v chain bumped hb)
    simp only [hw, hne, if_false, Nat.add_zero]
  | none =>
    have h0 := (bumpChain_none_iff v chain).mp hb
    simp only [List.map_cons, List.sum_cons, h0, if_true]
    omega

theorem chainAfter_word_mem (v : List Nat) (chain : List Entry) (e : Entry)
    (he : e ∈ chainAfter v chain) :
    e.word = cstr v ∨ ∃ e0 ∈ chain, e0.word = e.word := by
  unfold chainAfter at he
  cases hb : bumpChain v chain with
  | some bumped =>
    rw [hb] at he
    right
    have hm : e.word ∈ bumped.map (fun e => e.word) := List.mem_map.mpr ⟨e, he, rfl⟩
    rw [bumpChain_words v chain bumped hb] at hm
    rcases List.mem_map.mp hm with ⟨e0, h0, h1⟩
    exact ⟨e0, h0, h1⟩
  | none =>
    rw [hb] at he
    rcases List.mem_cons.mp he with h | h
    · left; rw [h]
    · right; exact ⟨e, h, rfl⟩

/-! ## The effect of `add_word` on a table -/

theorem entries_createHT : entries createHT = [] := by
  unfold entries createHT
  generalize List.range HASH_TABLE_SIZE = l
  induction l with
  | nil => rfl
  | cons i l ih => simp [List.flatMap_cons]

theorem nodes_createHT (w : List Nat) : nodes createHT w = 0 := by
  unfold nodes
  rw [entries_createHT]
  rfl

theorem unique_words_createHT : unique_words createHT = 0 := by
  unfold unique_words
  rw [entries_createHT]
  rfl

theorem wellPlaced_createHT : WellPlaced createHT := by
  intro i _ e he
  simp [createHT] at he

theorem wellPlaced_add_word (ht : HashTable) (v : List Nat) (h : WellPlaced ht) :
    WellPlaced (add_word ht v) := by
  intro i hi e he
  rw [add_word_eq] at he
  by_cases hidx : i = hashFunc v
  · subst hidx
    simp only [Function.update_same] at he
    rcases chainAfter_word_mem v _ e he with hw | ⟨e0, h0, hw⟩
    · rw [hw, hashFunc_cstr]
    · rw [← hw]
      exact h _ hi e0 h0
  · simp only [Function.update, hidx, dite_false] at he
    exact h i hi e he

/-- In a well-placed table the nodes holding `v` all sit in the bucket of `v`. -/
theorem nodes_eq_bucket (ht : HashTable) (v : List Nat) (h : WellPlaced ht) :
    nodes ht v
      = ((ht.buckets (hashFunc v)).map (fun e => if strcmp_eq e.word v then 1 else 0)).sum := by
  unfold nodes entries
  rw [sum_flatMap]
  apply sum_range_single _ (hashFunc v) HASH_TABLE_SIZE (hashFunc_lt v)
  intro i hi hne
  apply List.sum_eq_zero
  intro y hy
  rcases List.mem_map.mp hy with ⟨e, he, rfl⟩
  have hhash := h i hi e he
  by_cases hs : strcmp_eq e.word v = true
  · exfalso
    apply hne
    rw [← hhash]
    exact hashFunc_congr _ _ ((strcmp_eq_iff _ _).mp hs)
  · simp [hs]

theorem nodes_congr (ht : HashTable) (v w : List Nat) (h : strcmp_eq v w = true) :
    nodes ht v = nodes ht w := by
  unfold nodes
  have hvw := (strcmp_eq_iff _ _).mp h
  simp only [strcmp_eq, hvw]

/-- Adding a word allocates a node exactly when no node holds the word yet. -/
theorem nodes_add_word (ht : HashTable) (v w : List Nat) (h : WellPlaced ht) :
    nodes (add_word ht v) w
      = nodes ht w + (if strcmp_eq v w = true ∧ nodes ht w = 0 then 1 else 0) := by
  have hs := add_word_sum (fun e => if strcmp_eq e.word w then 1 else 0) ht v
  rw [chainAfter_nodes, ← nodes_eq_bucket ht v h] at hs
  have hcond : (strcmp_eq v w = true ∧ nodes ht v = 0)
      ↔ (strcmp_eq v w = true ∧ nodes ht w = 0) := by
    constructor
    · rintro ⟨h1, h2⟩
      exact ⟨h1, by rw [← nodes_congr ht v w h1]; exact h2⟩
    · rintro ⟨h1, h2⟩
      exact ⟨h1, by rw [nodes_congr ht v w h1]; exact h2⟩
  simp only [hcond] at hs
  unfold nodes at hs ⊢
  omega

theorem unique_words_eq_sum (ht : HashTable) :
    unique_words ht = ((entries ht).map (fun _ => 1)).sum := by
  unfold unique_words
  simp

theorem unique_words_add_word (ht : HashTable) (v : List Nat) (h : WellPlaced ht) :
    unique_words (add_word ht v) = unique_words ht + (if nodes ht v = 0 then 1 else 0) := by
  have hs := add_word_sum (fun _ => 1) ht v
  rw [chainAfter_length, ← nodes_eq_bucket ht v h] at hs
  rw [unique_words_eq_sum, unique_words_eq_sum]
  omega

/-! ## Adding a list of words -/

theorem occurrences_cons (v : List Nat) (ws : List (List Nat)) (w : List Nat) :
    occurrences (v :: ws) w = (if strcmp_eq v w then 1 else 0) + occurrences ws w := by
  unfold occurrences
  by_cases h : strcmp_eq v w = true
  · simp [List.filter_cons, h]; omega
  · simp [List.filter_cons, h]

theorem wellPlaced_foldl (ws : List (List Nat)) (ht : HashTable) (h : WellPlaced ht) :
    WellPlaced (ws.foldl add_word ht) := by
  induction ws generalizing ht with
  | nil => exact h
  | cons v rest ih => exact ih _ (wellPlaced_add_word ht v h)

theorem nodes_foldl (ws : List (List Nat)) (ht : HashTable) (w : List Nat)
    (h : WellPlaced ht) :
    nodes (ws.foldl add_word ht) w
      = nodes ht w + (if nodes ht w = 0 ∧ 0 < occurrences ws w then 1 else 0) := by
  induction ws generalizing ht with
  | nil => simp [occurrences]
  | cons v rest ih =>
    rw [List.foldl_cons, ih _ (wellPlaced_add_word ht v h), nodes_add_word ht v w h,
      occurrences_cons]
    by_cases h1 : strcmp_eq v w = true <;> by_cases h2 : nodes ht w = 0 <;>
      by_cases h3 : 0 < occurrences rest w <;> simp [h1, h2, h3]

theorem unique_words_foldl (ws : List (List Nat)) (ht : HashTable) (seen : List (List Nat))
    (h : WellPlaced ht)
    (hseen : ∀ w, 0 < nodes ht w ↔ seen.any (fun u => strcmp_eq u w) = true) :
    unique_words (ws.foldl add_word ht) = unique_words ht + freshWords seen ws := by
  induction ws generalizing ht seen with
  | nil => simp [freshWords]
  | cons v rest ih =>
    have hseen2 : ∀ w, 0 < nodes (add_word ht v) w
        ↔ (v :: seen).any (fun u => strcmp_eq u w) = true := by
      intro w
      rw [nodes_add_word ht v w h, List.any_cons, Bool.or_eq_true, ← hseen w]
      by_cases h1 : strcmp_eq v w = true <;> by_cases h2 : nodes ht w = 0 <;>
        first
          | (simp [h1, h2]; done)
          | (simp [h1, h2]; omega)
    rw [List.foldl_cons, ih _ (v :: seen) (wellPlaced_add_word ht v h) hseen2,
      unique_words_add_word ht v h]
    have hfw : freshWords seen (v :: rest)
        = (if seen.any (fun u => strcmp_eq u v) then 0 else 1) + freshWords (v :: seen) rest :=
      rfl
    rw [hfw]
    have hv := hseen v
    by_cases h2 : nodes ht v = 0
    · have : ¬ (seen.any (fun u => strcmp_eq u v) = true) := by
        rw [← hv]; omega
      rw [if_pos h2, if_neg this]
      omega
    · have : seen.any (fun u => strcmp_eq u v) = true := by
        rw [← hv]; omega
      rw [if_neg h2, if_pos this]
      omega

/-! ## The effect of `mergeHash` -/

/-- The loops of `mergeHash` add the word of every node of `src`, in the order of
`entries`. -/
theorem mergeHash_eq (dest src : HashTable) :
    mergeHash dest src = ((entries src).map (fun e => e.word)).foldl add_word dest := by
  rw [List.foldl_map]
  unfold mergeHash entries
  generalize List.range HASH_TABLE_SIZE = l
  induction l generalizing dest with
  | nil => rfl
  | cons i l ih => rw [List.foldl_cons, ih, List.flatMap_cons, List.foldl_append]

theorem occurrences_words (l : List Entry) (w : List Nat) :
    occurrences (l.map (fun e => e.word)) w
      = (l.map (fun e => if strcmp_eq e.word w then 1 else 0)).sum := by
  induction l with
  | nil => rfl
  | cons e rest ih =>
    rw [List.map_cons, occurrences_cons, ih, List.map_cons, List.sum_cons]

theorem wellPlaced_mergeHash (dest src : HashTable) (h : WellPlaced dest) :
    WellPlaced (mergeHash dest src) := by
  rw [mergeHash_eq]
  exact wellPlaced_foldl _ dest h

theorem nodes_mergeHash (dest src : HashTable) (w : List Nat) (h : WellPlaced dest) :
    nodes (mergeHash dest src) w
      = nodes dest w + (if nodes dest w = 0 ∧ 0 < nodes src w then 1 else 0) := by
  rw [mergeHash_eq, nodes_foldl _ dest w h, occurrences_words]
  rfl

/-! ## The worker's loop -/

theorem scanLoop_eq (fuel : Nat) (ht : HashTable) (input : List Nat) :
    scanLoop fuel ht input = (scanWords fuel input).foldl add_word ht := by
  induction fuel generalizing ht input with
  | zero => rfl
  | succ k ih =>
    unfold scanLoop scanWords
    cases hf : fscanf_s 255 input with
    | none => rfl
    | some p =>
      obtain ⟨word, rest⟩ := p
      simp only [List.foldl_cons]
      exact ih _ _

theorem process_chunk_eq (file : List Nat) (t_arg : ThreadArg) :
    process_chunk file t_arg = (chunkWords file t_arg).foldl add_word createHT := by
  unfold process_chunk chunkWords
  exact scanLoop_eq _ _ _

theorem wellPlaced_process_chunk (file : List Nat) (t_arg : ThreadArg) :
    WellPlaced (process_chunk file t_arg) := by
  rw [process_chunk_eq]
  exact wellPlaced_foldl _ _ wellPlaced_createHT

theorem nodes_process_chunk (file : List Nat) (t_arg : ThreadArg) (w : List Nat) :
    nodes (process_chunk file t_arg) w
      = if 0 < occurrences (chunkWords file t_arg) w then 1 else 0 := by
  rw [process_chunk_eq, nodes_foldl _ _ _ wellPlaced_createHT, nodes_createHT]
  simp

theorem unique_words_process_chunk (file : List Nat) (t_arg : ThreadArg) :
    unique_words (process_chunk file t_arg) = freshWords [] (chunkWords file t_arg) := by
  rw [process_chunk_eq, unique_words_foldl _ _ [] wellPlaced_createHT, unique_words_createHT]
  · omega
  · intro w
    rw [nodes_createHT]
    simp

/-! ## The merge loop of `main` -/

theorem sum_nodes_worker_tables (file : List Nat) (w : List Nat) (args : List ThreadArg) :
    ((args.map (process_chunk file)).map (fun t => nodes t w)).sum
      = (args.map
          (fun t_arg => if 0 < occurrences (chunkWords file t_arg) w then 1 else 0)).sum := by
  induction args with
  | nil => rfl
  | cons a rest ih =>
    simp only [List.map_cons, List.sum_cons, nodes_process_chunk, ih]

theorem sum_unique_worker_tables (file : List Nat) (args : List ThreadArg) :
    ((args.map (process_chunk file)).map unique_words).sum
      = (args.map (fun t_arg => freshWords [] (chunkWords file t_arg))).sum := by
  induction args with
  | nil => rfl
  | cons a rest ih =>
    simp only [List.map_cons, List.sum_cons, unique_words_process_chunk, ih]

/-! ## At most one node per word -/

theorem oneNodePerWord_createHT : OneNodePerWord createHT := by
  intro w
  rw [nodes_createHT]
  omega

theorem oneNodePerWord_add_word (ht : HashTable) (v : List Nat) (hp : WellPlaced ht)
    (h : OneNodePerWord ht) : OneNodePerWord (add_word ht v) := by
  intro w
  rw [nodes_add_word ht v w hp]
  have hw := h w
  by_cases h0 : nodes ht w = 0
  · rw [h0]
    split <;> omega
  · rw [if_neg (fun hc => h0 hc.2)]
    omega

theorem oneNodePerWord_mergeHash (dest src : HashTable) (hp : WellPlaced dest)
    (h : OneNodePerWord dest) : OneNodePerWord (mergeHash dest src) := by
  intro w
  rw [nodes_mergeHash dest src w hp]
  have hw := h w
  by_cases h0 : nodes dest w = 0
  · rw [h0]
    split <;> omega
  · rw [if_neg (fun hc => h0 hc.1)]
    omega

theorem reachable_wellPlaced (ht : HashTable) (h : Reachable ht) : WellPlaced ht := by
  induction h with
  | create => exact wellPlaced_createHT
  | add ht word _ ih => exact wellPlaced_add_word ht word ih
  | merge dest src _ _ ih _ => exact wellPlaced_mergeHash dest src ih

theorem reachable_oneNodePerWord (ht : HashTable) (h : Reachable ht) : OneNodePerWord ht := by
  induction h with
  | create => exact oneNodePerWord_createHT
  | add ht word hr ih =>
    exact oneNodePerWord_add_word ht word (reachable_wellPlaced ht hr) ih
  | merge dest src hr _ ih _ =>
    exact oneNodePerWord_mergeHash dest src (reachable_wellPlaced dest hr) ih

theorem reachable_foldl (ws : List (List Nat)) (ht : HashTable) (h : Reachable ht) :
    Reachable (ws.foldl add_word ht) := by
  induction ws generalizing ht with
  | nil => exact h
  | cons v rest ih => exact ih _ (Reachable.add ht v h)

theorem bucket_nodes_le (ht : HashTable) (w : List Nat) (i : Nat) (hi : i < HASH_TABLE_SIZE) :
    ((ht.buckets i).map (fun e => if strcmp_eq e.word w then 1 else 0)).sum ≤ nodes ht w := by
  have h := sum_range_update
    (fun j => ((ht.buckets j).map (fun e => if strcmp_eq e.word w then 1 else 0)).sum)
    i 0 HASH_TABLE_SIZE hi
  unfold nodes entries
  rw [sum_flatMap]
  simp only at h
  omega

/-! ## The `int` counts -/

theorem incrInt_of_lt (c : Int) (hlo : -2147483649 ≤ c) (hhi : c < 2147483647) :
    incrInt c = c + 1 := by
  unfold incrInt wrapInt
  omega

theorem incrInt_zero : incrInt 0 = 1 := by decide

theorem iterate_incrInt (k : Nat) (c : Int) (hlo : -2147483649 ≤ c)
    (hhi : c + k ≤ 2147483647) : incrInt^[k] c = c + k := by
  induction k generalizing c with
  | zero => simp
  | succ k ih =>
    rw [Function.iterate_succ_apply, incrInt_of_lt c hlo (by omega), ih (c + 1) (by omega)
      (by push_cast at hhi ⊢; omega)]
    push_cast
    omega

theorem sum_flatMap_int (f : Entry → Int) (b : Nat → List Entry) (l : List Nat) :
    ((l.flatMap b).map f).sum = (l.map (fun i => ((b i).map f).sum)).sum := by
  induction l with
  | nil => simp
  | cons i l ih => simp [List.flatMap_cons, ih]

theorem sum_range_update_int (g : Nat → Int) (idx : Nat) (x : Int) (n : Nat) (h : idx < n) :
    ((List.range n).map (Function.update g idx x)).sum + g idx
      = ((List.range n).map g).sum + x := by
  induction n with
  | zero => omega
  | succ k ih =>
    rw [List.range_succ, List.map_append, List.map_append, List.sum_append, List.sum_append]
    simp only [List.map_cons, List.map_nil, List.sum_cons, List.sum_nil, Int.add_zero]
    by_cases hk : idx = k
    · subst hk
      have hsame : (List.range idx).map (Function.update g idx x) = (List.range idx).map g := by
        apply List.map_congr_left
        intro i hi
        have : i ≠ idx := by
          have := List.mem_range.mp hi
          omega
        simp [Function.update, this]
      rw [hsame]
      simp [Function.update]
      omega
    · have := ih (by omega)
      have hk2 : Function.update g idx x k = g k := by
        have : k ≠ idx := fun e => hk e.symm
        simp [Function.update, this]
      rw [hk2]
      omega

/-- Replacing the chain of one bucket changes a sum of `int`s over the nodes by the
difference of the two chains. -/
theorem entries_update_int (f : Entry → Int) (ht : HashTable) (idx : Nat)
    (h : idx < HASH_TABLE_SIZE) (chain : List Entry) :
    ((entries (HashTable.mk (Function.update ht.buckets idx chain))).map f).sum
        + ((ht.buckets idx).map f).sum
      = ((entries ht).map f).sum + (chain.map f).sum := by
  unfold entries
  rw [sum_flatMap_int, sum_flatMap_int]
  have key := sum_range_update_int (fun i => ((ht.buckets i).map f).sum) idx (chain.map f).sum
    HASH_TABLE_SIZE h
  have hfun : (fun i => ((Function.update ht.buckets idx chain i).map f).sum)
      = Function.update (fun i => ((ht.buckets i).map f).sum) idx (chain.map f).sum := by
    funext i
    by_cases hi : i = idx
    · subst hi
      simp
    · simp [Function.update, hi]
  simp only [hfun]
  exact key

theorem add_word_sum_int (f : Entry → Int) (ht : HashTable) (word : List Nat) :
    ((entries (add_word ht word)).map f).sum + ((ht.buckets (hashFunc word)).map f).sum
      = ((entries ht).map f).sum
        + ((chainAfter word (ht.buckets (hashFunc word))).map f).sum := by
  rw [add_word_eq]
  exact entries_update_int f ht (hashFunc word) (hashFunc_lt word) _

theorem count_createHT (w : List Nat) : count createHT w = 0 := by
  unfold count
  rw [entries_createHT]
  rfl

theorem total_createHT : total createHT = 0 := by
  unfold total
  rw [entries_createHT]
  rfl

theorem sum_count_zero_of_nodes_zero (l : List Entry) (w : List Nat)
    (h : (l.map (fun e => if strcmp_eq e.word w then 1 else 0)).sum = 0) :
    (l.map (fun e => if strcmp_eq e.word w then e.count else 0)).sum = 0 := by
  induction l with
  | nil => rfl
  | cons e rest ih =>
    rw [List.map_cons, List.sum_cons] at h ⊢
    by_cases he : strcmp_eq e.word w = true
    · rw [if_pos he] at h
      omega
    · rw [if_neg he] at h ⊢
      rw [ih (by omega)]
      rfl

theorem count_zero_of_nodes_zero (ht : HashTable) (w : List Nat) (h : nodes ht w = 0) :
    count ht w = 0 := by
  unfold nodes at h
  unfold count
  exact sum_count_zero_of_nodes_zero _ w h

/-! ## The effect of `add_word` on the counts of one chain -/

theorem bumpChain_count_other (v w : List Nat) (chain bumped : List Entry)
    (hvw : strcmp_eq v w = false) (h : bumpChain v chain = some bumped) :
    (bumped.map (fun e => if strcmp_eq e.word w then e.count else 0)).sum
      = (chain.map (fun e => if strcmp_eq e.word w then e.count else 0)).sum := by
  induction chain generalizing bumped with
  | nil => simp [bumpChain] at h
  | cons e rest ih =>
    unfold bumpChain at h
    by_cases he : strcmp_eq e.word v = true
    · rw [if_pos he] at h
      cases h
      have hew : strcmp_eq e.word w = false := by
        have h1 := (strcmp_eq_iff _ _).mp he
        unfold strcmp_eq at hvw ⊢
        rw [h1]
        exact hvw
      simp only [List.map_cons, List.sum_cons, hew]
      rfl
    · rw [if_neg he] at h
      cases hb : bumpChain v rest with
      | none => rw [hb] at h; simp at h
      | some c =>
        rw [hb] at h
        simp only [Option.map_some', Option.some.injEq] at h
        subst h
        simp only [List.map_cons, List.sum_cons, ih c hb]

theorem bumpChain_count_same (v w : List Nat) (chain bumped : List Entry)
    (hvw : strcmp_eq v w = true)
    (h1 : (chain.map (fun e => if strcmp_eq e.word w then 1 else 0)).sum ≤ 1)
    (h : bumpChain v chain = some bumped) :
    (bumped.map (fun e => if strcmp_eq e.word w then e.count else 0)).sum
      = incrInt ((chain.map (fun e => if strcmp_eq e.word w then e.count else 0)).sum) := by
  induction chain generalizing bumped with
  | nil => simp [bumpChain] at h
  | cons e rest ih =>
    unfold bumpChain at h
    rw [List.map_cons, List.sum_cons] at h1
    by_cases he : strcmp_eq e.word v = true
    · rw [if_pos he] at h
      cases h
      have hew : strcmp_eq e.word w = true := by
        have h2 := (strcmp_eq_iff _ _).mp he
        have h3 := (strcmp_eq_iff _ _).mp hvw
        rw [strcmp_eq_iff, h2, h3]
      rw [if_pos hew] at h1
      have hz := sum_count_zero_of_nodes_zero rest w (by omega)
      simp only [List.map_cons, List.sum_cons, hew, if_true, hz, Int.add_zero]
    · rw [if_neg he] at h
      have hew : ¬ strcmp_eq e.word w = true := by
        intro hc
        apply he
        have h2 := (strcmp_eq_iff _ _).mp hc
        have h3 := (strcmp_eq_iff _ _).mp hvw
        rw [strcmp_eq_iff, h2, h3]
      rw [if_neg hew] at h1
      cases hb : bumpChain v rest with
      | none => rw [hb] at h; simp at h
      | some c =>
        rw [hb] at h
        simp only [Option.map_some', Option.some.injEq] at h
        subst h
        rw [List.map_cons, List.sum_cons, List.map_cons, List.sum_cons, if_neg hew,
          Int.zero_add, Int.zero_add]
        exact ih c (by omega) hb

theorem bumpChain_total (v : List Nat) (chain bumped : List Entry)
    (h : bumpChain v chain = some bumped) :
    (bumped.map (fun e => e.count)).sum
        + (chain.map (fun e => if strcmp_eq e.word v then e.count else 0)).sum
      = (chain.map (fun e => e.count)).sum
        + (bumped.map (fun e => if strcmp_eq e.word v then e.count else 0)).sum := by
  induction chain generalizing bumped with
  | nil => simp [bumpChain] at h
  | cons e rest ih =>
    unfold bumpChain at h
    by_cases he : strcmp_eq e.word v = true
    · rw [if_pos he] at h
      cases h
      simp only [List.map_cons, List.sum_cons, he, if_true]
      omega
    · rw [if_neg he] at h
      cases hb : bumpChain v rest with
      | none => rw [hb] at h; simp at h
      | some c =>
        rw [hb] at h
        simp only [Option.map_some', Option.some.injEq] at h
        subst h
        have := ih c hb
        simp only [List.map_cons, List.sum_cons, he, if_false]
        omega
theorem strcmp_eq_cstr_left (v w : List Nat) : strcmp_eq (cstr v) w = strcmp_eq v w := by
  unfold strcmp_eq
  rw [cstr_cstr]

theorem chainAfter_count_other (v w : List Nat) (chain : List Entry)
    (hvw : strcmp_eq v w = false) :
    ((chainAfter v chain).map (fun e => if strcmp_eq e.word w then e.count else 0)).sum
      = (chain.map (fun e => if strcmp_eq e.word w then e.count else 0)).sum := by
  unfold chainAfter
  cases hb : bumpChain v chain with
  | some bumped => exact bumpChain_count_other v w chain bumped hvw hb
  | none =>
    have hne : ¬ strcmp_eq (cstr v) w = true := by
      rw [strcmp_eq_cstr_left, hvw]
      exact Bool.false_ne_true
    rw [List.map_cons, List.sum_cons, if_neg hne, Int.zero_add]

theorem chainAfter_count_none (v w : List Nat) (chain : List Entry)
    (hvw : strcmp_eq v w = true) (hb : bumpChain v chain = none) :
    ((chainAfter v chain).map (fun e => if strcmp_eq e.word w then e.count else 0)).sum
      = (chain.map (fun e => if strcmp_eq e.word w then e.count else 0)).sum + 1 := by
  unfold chainAfter
  rw [hb]
  have hc : strcmp_eq (cstr v) w = true := by rw [strcmp_eq_cstr_left, hvw]
  rw [List.map_cons, List.sum_cons, if_pos hc]
  dsimp only
  omega

theorem chainAfter_count_some (v w : List Nat) (chain bumped : List Entry)
    (hvw : strcmp_eq v w = true)
    (h1 : (chain.map (fun e => if strcmp_eq e.word w then 1 else 0)).sum ≤ 1)
    (hb : bumpChain v chain = some bumped) :
    ((chainAfter v chain).map (fun e => if strcmp_eq e.word w then e.count else 0)).sum
      = incrInt ((chain.map (fun e => if strcmp_eq e.word w then e.count else 0)).sum) := by
  unfold chainAfter
  rw [hb]
  exact bumpChain_count_same v w chain bumped hvw h1 hb

theorem chainAfter_total (v : List Nat) (chain : List Entry) :
    ((chainAfter v chain).map (fun e => e.count)).sum
        + (chain.map (fun e => if strcmp_eq e.word v then e.count else 0)).sum
      = (chain.map (fun e => e.count)).sum
        + ((chainAfter v chain).map (fun e => if strcmp_eq e.word v then e.count else 0)).sum := by
  unfold chainAfter
  cases hb : bumpChain v chain with
  | some bumped => exact bumpChain_total v chain bumped hb
  | none =>
    have hc : strcmp_eq (cstr v) v = true := by
      rw [strcmp_eq_cstr_left]
      exact (strcmp_eq_iff v v).mpr rfl
    simp only [List.map_cons, List.sum_cons, hc, if_true]
    omega

theorem sum_nodes_congr (l : List Entry) (v w : List Nat) (h : strcmp_eq v w = true) :
    (l.map (fun e => if strcmp_eq e.word v then 1 else 0)).sum
      = (l.map (fun e => if strcmp_eq e.word w then 1 else 0)).sum := by
  have hvw := (strcmp_eq_iff _ _).mp h
  simp only [strcmp_eq, hvw]

/-! ## The effect of `add_word` on the counts of a table -/

/-- Adding a word leaves the count of every other word. -/
theorem count_add_word_other (ht : HashTable) (v w : List Nat) (hvw : strcmp_eq v w = false) :
    count (add_word ht v) w = count ht w := by
  have h := add_word_sum_int (fun e => if strcmp_eq e.word w then e.count else 0) ht v
  rw [chainAfter_count_other v w _ hvw] at h
  unfold count
  omega

theorem nodes_add_word_other (ht : HashTable) (v w : List Nat) (hvw : strcmp_eq v w = false) :
    nodes (add_word ht v) w = nodes ht w := by
  have h := add_word_sum (fun e => if strcmp_eq e.word w then 1 else 0) ht v
  rw [chainAfter_nodes] at h
  have hne : ¬ (strcmp_eq v w = true
      ∧ ((ht.buckets (hashFunc v)).map (fun e => if strcmp_eq e.word v then 1 else 0)).sum
        = 0) := by
    rintro ⟨h1, _⟩
    rw [hvw] at h1
    cases h1
  rw [if_neg hne] at h
  unfold nodes
  omega

/-- When at most one node holds `w` and the bucket `idx` holds such a node, the count of `w`
is the count found in that bucket. -/
theorem count_eq_bucket_of_nodes (ht : HashTable) (w : List Nat) (idx : Nat)
    (hidx : idx < HASH_TABLE_SIZE) (h1 : nodes ht w ≤ 1)
    (hb : ((ht.buckets idx).map (fun e => if strcmp_eq e.word w then 1 else 0)).sum ≠ 0) :
    count ht w
      = ((ht.buckets idx).map (fun e => if strcmp_eq e.word w then e.count else 0)).sum := by
  have hn := entries_update (fun e => if strcmp_eq e.word w then 1 else 0) ht idx hidx []
  have hc := entries_update_int (fun e => if strcmp_eq e.word w then e.count else 0) ht idx
    hidx []
  have hrest : nodes (HashTable.mk (Function.update ht.buckets idx [])) w = 0 := by
    unfold nodes at h1 ⊢
    simp only [List.map_nil, List.sum_nil] at hn
    omega
  have hzero := count_zero_of_nodes_zero _ w hrest
  unfold count at hzero ⊢
  simp only [List.map_nil, List.sum_nil] at hc
  omega

/-- Adding the word `w` when at most one node holds it: a new node gives the count `+ 1`,
the node of its bucket has its `int` count incremented. -/
theorem count_add_word_cases (ht : HashTable) (v w : List Nat) (hvw : strcmp_eq v w = true)
    (h1 : nodes ht w ≤ 1) :
    (bumpChain v (ht.buckets (hashFunc v)) = none →
        count (add_word ht v) w = count ht w + 1)
    ∧ (bumpChain v (ht.buckets (hashFunc v)) ≠ none →
        count (add_word ht v) w = incrInt (count ht w)) := by
  have h := add_word_sum_int (fun e => if strcmp_eq e.word w then e.count else 0) ht v
  constructor
  · intro hb
    rw [chainAfter_count_none v w _ hvw hb] at h
    unfold count
    omega
  · intro hb
    cases hs : bumpChain v (ht.buckets (hashFunc v)) with
    | none => exact absurd hs hb
    | some bumped =>
      have hle := bucket_nodes_le ht w (hashFunc v) (hashFunc_lt v)
      have hne : ((ht.buckets (hashFunc v)).map
          (fun e => if strcmp_eq e.word w then 1 else 0)).sum ≠ 0 := by
        intro h0
        rw [← sum_nodes_congr _ v w hvw] at h0
        rw [(bumpChain_none_iff v _).mpr h0] at hs
        cases hs
      rw [chainAfter_count_some v w _ bumped hvw (by omega) hs,
        ← count_eq_bucket_of_nodes ht w (hashFunc v) (hashFunc_lt v) h1 hne] at h
      unfold count at h ⊢
      omega

/-- In a table the program has built, adding the word `w` increments the `int` count of
`w`. -/
theorem count_add_word_same (ht : HashTable) (v w : List Nat) (hvw : strcmp_eq v w = true)
    (hp : WellPlaced ht) (h1 : nodes ht w ≤ 1) :
    count (add_word ht v) w = incrInt (count ht w) := by
  have hc := count_add_word_cases ht v w hvw h1
  cases hs : bumpChain v (ht.buckets (hashFunc v)) with
  | none =>
    have h0 := (bumpChain_none_iff v _).mp hs
    rw [← nodes_eq_bucket ht v hp, nodes_congr ht v w hvw] at h0
    rw [hc.1 hs, count_zero_of_nodes_zero ht w h0]
    rfl
  | some bumped =>
    exact hc.2 (by rw [hs]; exact Option.some_ne_none bumped)

/-- Adding the word `w` raises its count by one as long as the count is an `int` below
2147483647. -/
theorem count_add_word_bounded (ht : HashTable) (v w : List Nat) (hvw : strcmp_eq v w = true)
    (h1 : nodes ht w ≤ 1) (hlo : -2147483649 ≤ count ht w) (hhi : count ht w < 2147483647) :
    count (add_word ht v) w = count ht w + 1 := by
  have hc := count_add_word_cases ht v w hvw h1
  cases hs : bumpChain v (ht.buckets (hashFunc v)) with
  | none => exact hc.1 hs
  | some bumped =>
    rw [hc.2 (by rw [hs]; exact Option.some_ne_none bumped), incrInt_of_lt _ hlo hhi]

/-- Adding a word changes the sum of all counts by what it changes the count of the word. -/
theorem total_add_word (ht : HashTable) (v : List Nat) :
    total (add_word ht v) + count ht v = total ht + count (add_word ht v) v := by
  have ht1 := add_word_sum_int (fun e => e.count) ht v
  have hc1 := add_word_sum_int (fun e => if strcmp_eq e.word v then e.count else 0) ht v
  have hch := chainAfter_total v (ht.buckets (hashFunc v))
  unfold total count
  omega
/-! ## The counts after a list of words, a merge, a worker, the merge loop -/

theorem count_foldl (ws : List (List Nat)) (ht : HashTable) (w : List Nat)
    (hp : WellPlaced ht) (h1 : OneNodePerWord ht) :
    count (ws.foldl add_word ht) w = incrInt^[occurrences ws w] (count ht w) := by
  induction ws generalizing ht with
  | nil => rfl
  | cons v rest ih =>
    rw [List.foldl_cons, ih _ (wellPlaced_add_word ht v hp) (oneNodePerWord_add_word ht v hp h1),
      occurrences_cons]
    by_cases hvw : strcmp_eq v w = true
    · rw [if_pos hvw, count_add_word_same ht v w hvw hp (h1 w), Nat.add_comm,
        Function.iterate_succ_apply]
    · have hf : strcmp_eq v w = false := by simpa using hvw
      rw [if_neg hvw, count_add_word_other ht v w hf, Nat.zero_add]

theorem count_foldl_none (ws : List (List Nat)) (ht : HashTable) (w : List Nat)
    (h0 : occurrences ws w = 0) : count (ws.foldl add_word ht) w = count ht w := by
  induction ws generalizing ht with
  | nil => rfl
  | cons v rest ih =>
    rw [occurrences_cons] at h0
    have hvw : strcmp_eq v w = false := by
      by_contra hc
      have ht2 : strcmp_eq v w = true := by simpa using hc
      rw [if_pos ht2] at h0
      omega
    rw [List.foldl_cons, ih _ (by omega), count_add_word_other ht v w hvw]

/-- When the word occurs at most once in the list and its count is an `int` below
2147483647, the count grows by the number of occurrences. -/
theorem count_foldl_once (ws : List (List Nat)) (ht : HashTable) (w : List Nat)
    (h1 : nodes ht w ≤ 1) (hocc : occurrences ws w ≤ 1)
    (hlo : -2147483649 ≤ count ht w) (hhi : count ht w < 2147483647) :
    count (ws.foldl add_word ht) w = count ht w + occurrences ws w := by
  induction ws generalizing ht with
  | nil => simp [occurrences]
  | cons v rest ih =>
    rw [occurrences_cons] at hocc ⊢
    by_cases hvw : strcmp_eq v w = true
    · rw [if_pos hvw] at hocc ⊢
      rw [List.foldl_cons, count_foldl_none rest _ w (by omega),
        count_add_word_bounded ht v w hvw h1 hlo hhi]
      have hz : occurrences rest w = 0 := by omega
      rw [hz]
      push_cast
      omega
    · have hf : strcmp_eq v w = false := by simpa using hvw
      rw [if_neg hvw] at hocc ⊢
      rw [List.foldl_cons, ih _ (by rw [nodes_add_word_other ht v w hf]; exact h1)
        (by omega) (by rw [count_add_word_other ht v w hf]; exact hlo)
        (by rw [count_add_word_other ht v w hf]; exact hhi),
        count_add_word_other ht v w hf, Nat.zero_add]

/-- After the merge the `int` count of `dest` has been incremented once per node of `src`
holding the word: the counts stored in `src` are not read. -/
theorem count_mergeHash (dest src : HashTable) (w : List Nat) (hp : WellPlaced dest)
    (h1 : OneNodePerWord dest) :
    count (mergeHash dest src) w = incrInt^[nodes src w] (count dest w) := by
  rw [mergeHash_eq, count_foldl _ dest w hp h1, occurrences_words]
  rfl

theorem count_mergeHash_once (dest src : HashTable) (w : List Nat) (h1 : nodes dest w ≤ 1)
    (hs : nodes src w ≤ 1) (hlo : -2147483649 ≤ count dest w)
    (hhi : count dest w < 2147483647) :
    count (mergeHash dest src) w = count dest w + nodes src w := by
  have hocc : occurrences ((entries src).map (fun e => e.word)) w = nodes src w := by
    rw [occurrences_words]
    rfl
  rw [mergeHash_eq, count_foldl_once _ dest w h1 (by rw [hocc]; exact hs) hlo hhi, hocc]

/-- The private table holds, for every word, the `int` incremented once per time the
worker's loop reads the word. -/
theorem count_process_chunk (file : List Nat) (t_arg : ThreadArg) (w : List Nat) :
    count (process_chunk file t_arg) w = incrInt^[occurrences (chunkWords file t_arg) w] 0 := by
  rw [process_chunk_eq, count_foldl _ _ _ wellPlaced_createHT oneNodePerWord_createHT,
    count_createHT]

theorem oneNodePerWord_merge_all (ts : List HashTable) (g : HashTable) (hp : WellPlaced g)
    (h1 : OneNodePerWord g) :
    WellPlaced (ts.foldl mergeHash g) ∧ OneNodePerWord (ts.foldl mergeHash g) := by
  induction ts generalizing g with
  | nil => exact ⟨hp, h1⟩
  | cons t rest ih =>
    exact ih _ (wellPlaced_mergeHash g t hp) (oneNodePerWord_mergeHash g t hp h1)

theorem count_merge_all (ts : List HashTable) (g : HashTable) (w : List Nat)
    (hp : WellPlaced g) (h1 : OneNodePerWord g) :
    count (ts.foldl mergeHash g) w
      = incrInt^[(ts.map (fun t => nodes t w)).sum] (count g w) := by
  induction ts generalizing g with
  | nil => rfl
  | cons t rest ih =>
    rw [List.foldl_cons, ih _ (wellPlaced_mergeHash g t hp)
      (oneNodePerWord_mergeHash g t hp h1), count_mergeHash g t w hp h1, List.map_cons,
      List.sum_cons, Nat.add_comm, Function.iterate_add_apply]

/-- The count of a word in the global table is the `int` incremented once per worker that
read the word at least once. -/
theorem count_global_table (file : List Nat) (num_threads : Nat) (w : List Nat) :
    count (global_table file num_threads) w
      = incrInt^[((thread_args file.length num_threads).map
          (fun t_arg => if 0 < occurrences (chunkWords file t_arg) w then 1 else 0)).sum] 0 := by
  unfold global_table worker_tables
  rw [count_merge_all _ _ _ wellPlaced_createHT oneNodePerWord_createHT, count_createHT,
    sum_nodes_worker_tables]
/-! ## The sum of the counts -/

theorem countsWithin_createHT : CountsWithin createHT 0 := by
  intro w
  rw [count_createHT]
  exact ⟨le_refl 0, le_refl 0⟩

theorem strcmp_eq_self (v : List Nat) : strcmp_eq v v = true := (strcmp_eq_iff v v).mpr rfl

/-- While the counts stay below 2147483647, adding a word raises the sum of the counts by
one. -/
theorem total_add_word_small (ht : HashTable) (v : List Nat) (n : Nat)
    (h1 : OneNodePerWord ht) (hc : CountsWithin ht n) (hn : n < 2147483647) :
    total (add_word ht v) = total ht + 1 ∧ CountsWithin (add_word ht v) (n + 1) := by
  constructor
  · have ht1 := total_add_word ht v
    have hv := hc v
    rw [count_add_word_bounded ht v v (strcmp_eq_self v) (h1 v) (by omega) (by omega)] at ht1
    omega
  · intro w
    have hw := hc w
    by_cases hvw : strcmp_eq v w = true
    · rw [count_add_word_bounded ht v w hvw (h1 w) (by omega) (by omega)]
      push_cast
      omega
    · have hf : strcmp_eq v w = false := by simpa using hvw
      rw [count_add_word_other ht v w hf]
      push_cast
      omega

theorem total_foldl_small (ws : List (List Nat)) (ht : HashTable) (n : Nat)
    (hp : WellPlaced ht) (h1 : OneNodePerWord ht) (hc : CountsWithin ht n)
    (hn : n + ws.length ≤ 2147483647) :
    total (ws.foldl add_word ht) = total ht + ws.length
    ∧ CountsWithin (ws.foldl add_word ht) (n + ws.length) := by
  induction ws generalizing ht n with
  | nil => exact ⟨by simp, hc⟩
  | cons v rest ih =>
    rw [List.length_cons] at hn
    have hstep := total_add_word_small ht v n h1 hc (by omega)
    have hrec := ih (add_word ht v) (n + 1) (wellPlaced_add_word ht v hp)
      (oneNodePerWord_add_word ht v hp h1) hstep.2 (by omega)
    rw [List.foldl_cons, List.length_cons]
    constructor
    · rw [hrec.1, hstep.1]
      push_cast
      omega
    · have h2 : n + (rest.length + 1) = n + 1 + rest.length := by omega
      rw [h2]
      exact hrec.2

theorem total_mergeHash_small (dest src : HashTable) (n : Nat) (hp : WellPlaced dest)
    (h1 : OneNodePerWord dest) (hc : CountsWithin dest n)
    (hn : n + unique_words src ≤ 2147483647) :
    total (mergeHash dest src) = total dest + unique_words src
    ∧ CountsWithin (mergeHash dest src) (n + unique_words src) := by
  have hlen : ((entries src).map (fun e => e.word)).length = unique_words src := by
    rw [List.length_map]
    rfl
  have h := total_foldl_small ((entries src).map (fun e => e.word)) dest n hp h1 hc
    (by rw [hlen]; exact hn)
  rw [hlen] at h
  rw [mergeHash_eq]
  exact h

theorem total_merge_all_small (ts : List HashTable) (g : HashTable) (n : Nat)
    (hp : WellPlaced g) (h1 : OneNodePerWord g) (hc : CountsWithin g n)
    (hn : n + (ts.map unique_words).sum ≤ 2147483647) :
    total (ts.foldl mergeHash g) = total g + ((ts.map unique_words).sum : Nat) := by
  induction ts generalizing g n with
  | nil => simp
  | cons t rest ih =>
    rw [List.map_cons, List.sum_cons] at hn ⊢
    have hstep := total_mergeHash_small g t n hp h1 hc (by omega)
    rw [List.foldl_cons, ih (mergeHash g t) (n + unique_words t) (wellPlaced_mergeHash g t hp)
      (oneNodePerWord_mergeHash g t hp h1) hstep.2 (by omega), hstep.1]
    push_cast
    omega

/-- The counts of the global table add up to the number of nodes of the private tables, as
long as that number is an `int`. -/
theorem total_global_table (file : List Nat) (num_threads : Nat)
    (hsmall : ((thread_args file.length num_threads).map
      (fun t_arg => freshWords [] (chunkWords file t_arg))).sum ≤ 2147483647) :
    total (global_table file num_threads)
      = (((thread_args file.length num_threads).map
          (fun t_arg => freshWords [] (chunkWords file t_arg))).sum : Nat) := by
  unfold global_table worker_tables
  rw [total_merge_all_small _ createHT 0 wellPlaced_createHT oneNodePerWord_createHT
    countsWithin_createHT (by rw [sum_unique_worker_tables]; omega), total_createHT,
    sum_unique_worker_tables]
  omega
/-! ## The table with one node -/

theorem count_oneNodeTable (w v : List Nat) (c : Int) :
    count (oneNodeTable w c) v = if strcmp_eq w v then c else 0 := by
  have h := entries_update_int (fun e => if strcmp_eq e.word v then e.count else 0) createHT
    (hashFunc w) (hashFunc_lt w) [Entry.mk (cstr w) c]
  rw [entries_createHT] at h
  have hb : createHT.buckets (hashFunc w) = [] := rfl
  rw [hb] at h
  simp only [List.map_nil, List.sum_nil, List.map_cons, List.sum_cons, strcmp_eq_cstr_left]
    at h
  unfold count oneNodeTable
  omega

theorem nodes_oneNodeTable (w v : List Nat) (c : Int) :
    nodes (oneNodeTable w c) v = if strcmp_eq w v then 1 else 0 := by
  have h := entries_update (fun e => if strcmp_eq e.word v then 1 else 0) createHT
    (hashFunc w) (hashFunc_lt w) [Entry.mk (cstr w) c]
  rw [entries_createHT] at h
  have hb : createHT.buckets (hashFunc w) = [] := rfl
  rw [hb] at h
  simp only [List.map_nil, List.sum_nil, List.map_cons, List.sum_cons, strcmp_eq_cstr_left]
    at h
  unfold nodes oneNodeTable
  omega

theorem oneNodePerWord_oneNodeTable (w : List Nat) (c : Int) :
    OneNodePerWord (oneNodeTable w c) := by
  intro v
  rw [nodes_oneNodeTable]
  split <;> omega

theorem add_word_createHT (w : List Nat) : add_word createHT w = oneNodeTable w 1 := by
  rw [add_word_eq]
  rfl

/-- Adding the word of the table with one node increments the `int` count of that node. -/
theorem add_word_oneNodeTable (w : List Nat) (c : Int) :
    add_word (oneNodeTable w c) w = oneNodeTable w (incrInt c) := by
  rw [add_word_eq]
  unfold oneNodeTable
  have hchain : chainAfter w [Entry.mk (cstr w) c] = [Entry.mk (cstr w) (incrInt c)] := by
    unfold chainAfter bumpChain
    rw [if_pos (by rw [strcmp_eq_cstr_left]; exact strcmp_eq_self w)]
  simp only [Function.update_same, hchain, Function.update_idem]

/-- The table with one node of count `k` is the table a worker builds by reading the word
`k` times, for every `k` from 1 to 2147483647. -/
theorem oneNodeTable_eq_foldl (w : List Nat) (k : Nat) (h1 : 1 ≤ k) (h2 : k ≤ 2147483647) :
    oneNodeTable w k = (List.replicate k w).foldl add_word createHT := by
  induction k with
  | zero => omega
  | succ n ih =>
    rw [List.replicate_succ', List.foldl_append, List.foldl_cons, List.foldl_nil]
    by_cases hn : n = 0
    · subst hn
      rw [List.replicate_zero, List.foldl_nil, add_word_createHT]
      rfl
    · rw [← ih (by omega) (by omega), add_word_oneNodeTable,
        incrInt_of_lt _ (by omega) (by omega)]
      push_cast
      rfl

theorem reachable_oneNodeTable (w : List Nat) (k : Nat) (h1 : 1 ≤ k) (h2 : k ≤ 2147483647) :
    Reachable (oneNodeTable w k) := by
  rw [oneNodeTable_eq_foldl w k h1 h2]
  exact reachable_foldl _ _ Reachable.create

/-! ## `findEnd`: bounds and the first whitespace byte -/

theorem findEnd_bounds (file : List Nat) (p S : Nat) (h : p ≤ S) :
    p ≤ findEnd file p S ∧ findEnd file p S ≤ S := by
  unfold findEnd
  by_cases hge : p ≥ S
  · rw [if_pos hge]
    omega
  · rw [if_neg hge]
    exact findEndScan_bounds file S (S - p) p h

theorem findEnd_clear (file : List Nat) (p S r : Nat) (h1 : p ≤ r)
    (h2 : r < findEnd file p S) : isspace (fgetc file r) = false := by
  unfold findEnd at h2
  by_cases hge : p ≥ S
  · rw [if_pos hge] at h2
    omega
  · rw [if_neg hge] at h2
    exact findEndScan_clear file S (S - p) p r h1 h2 (by omega)

theorem findEnd_stop (file : List Nat) (p S : Nat) :
    findEnd file p S = S ∨
      (findEnd file p S < S ∧ isspace (fgetc file (findEnd file p S)) = true) := by
  unfold findEnd
  by_cases hge : p ≥ S
  · rw [if_pos hge]
    left; rfl
  · rw [if_neg hge]
    exact findEndScan_stop file S (S - p) p (by omega)

theorem findEnd_of_first (file : List Nat) (p S q : Nat) (hpq : p ≤ q) (hq : q < S)
    (hws : isspace (fgetc file q) = true)
    (hfirst : ∀ r, p ≤ r → r < q → isspace (fgetc file r) = false) :
    findEnd file p S = q := by
  have hb := findEnd_bounds file p S (by omega)
  have hclear := findEnd_clear file p S
  rcases findEnd_stop file p S with hS | ⟨hlt, hsp⟩
  · have := hclear q hpq (by omega)
    rw [this] at hws
    cases hws
  · by_contra hne
    rcases Nat.lt_or_gt_of_ne hne with h | h
    · have := hfirst (findEnd file p S) hb.1 h
      rw [this] at hsp
      cases hsp
    · have := hclear q hpq h
      rw [this] at hws
      cases hws

theorem findEnd_of_none (file : List Nat) (p S : Nat)
    (hnone : ∀ q, p ≤ q → q < S → isspace (fgetc file q) = false) :
    findEnd file p S = S := by
  rcases findEnd_stop file p S with hS | ⟨hlt, hsp⟩
  · exact hS
  · by_cases hp : p ≤ S
    · have hb := findEnd_bounds file p S hp
      have := hnone (findEnd file p S) hb.1 hlt
      rw [this] at hsp
      cases hsp
    · unfold findEnd
      rw [if_pos (by omega)]

/-! ## C9, C10: the boundary resolver -/

/-- C9: `findStart(p)` returns `q + 1` for the greatest index `q` below `p` that holds a
whitespace byte, and 0 when no byte below `p` is whitespace. In particular
`findStart(0) = 0`, `findStart(p) = p` when the byte at `p - 1` is whitespace, and
`findStart(p) = 0` for every `p` when the file has no whitespace byte. This holds for every
offset `p`, and so for every `p` with `0 ≤ p ≤ file_size`. -/
theorem findStart_after_last_whitespace (file : List Nat) (p : Nat) :
    (∀ q, q < p → isspace (fgetc file q) = true →
        (∀ r, q < r → r < p → isspace (fgetc file r) = false) → findStart file p = q + 1)
    ∧ ((∀ q, q < p → isspace (fgetc file q) = false) → findStart file p = 0)
    ∧ findStart file 0 = 0
    ∧ (0 < p → isspace (fgetc file (p - 1)) = true → findStart file p = p)
    ∧ ((∀ q, q < file.length → isspace (fgetc file q) = false) → findStart file p = 0) := by
  refine ⟨?_, ?_, ?_, ?_, ?_⟩
  · intro q hq hws hlast
    exact findStart_of_last file p q hq hws hlast
  · exact findStart_of_none file p
  · rfl
  · intro hp hws
    have := findStart_of_last file p (p - 1) (by omega) hws (fun r h1 h2 => by omega)
    omega
  · intro hnone
    apply findStart_of_none
    intro q _
    by_cases hq : q < file.length
    · exact hnone q hq
    · rw [fgetc_of_le file q (by omega)]
      exact isspace_EOF

/-- C10: `findEnd(p, S)` on a file of size `S` returns `S` when `p ≥ S`; otherwise it
returns the least index `q` with `p ≤ q < S` whose byte is whitespace, and `S` when there is
no such index. Hence `p ≤ findEnd(p, S) ≤ S` whenever `p ≤ S`, and no byte in
`[p, findEnd(p, S))` is whitespace. -/
theorem findEnd_first_whitespace (file : List Nat) (p : Nat) :
    (file.length ≤ p → findEnd file p file.length = file.length)
    ∧ (∀ q, p ≤ q → q < file.length → isspace (fgetc file q) = true →
        (∀ r, p ≤ r → r < q → isspace (fgetc file r) = false) →
        findEnd file p file.length = q)
    ∧ ((∀ q, p ≤ q → q < file.length → isspace (fgetc file q) = false) →
        findEnd file p file.length = file.length)
    ∧ (p ≤ file.length →
        p ≤ findEnd file p file.length ∧ findEnd file p file.length ≤ file.length)
    ∧ (∀ r, p ≤ r → r < findEnd file p file.length → isspace (fgetc file r) = false) := by
  refine ⟨?_, ?_, ?_, ?_, ?_⟩
  · intro hp
    unfold findEnd
    rw [if_pos hp]
  · intro q hpq hq hws hfirst
    exact findEnd_of_first file p file.length q hpq hq hws hfirst
  · exact findEnd_of_none file p file.length
  · exact findEnd_bounds file p file.length
  · intro r h1 h2
    exact findEnd_clear file p file.length r h1 h2

/-- C9 on the file `ab cd` at offset 4: the last whitespace byte below 4 is at offset 2, and
`findStart` returns 3; with no whitespace below offset 2 it returns 0. -/
theorem findStart_after_last_whitespace_witness :
    findStart (bytes "ab cd") 4 = 2 + 1 ∧ findStart (bytes "ab cd") 2 = 0 :=
  ⟨(findStart_after_last_whitespace (bytes "ab cd") 4).1 2 (by decide) (by decide)
      (fun r h1 h2 => by
        have h3 : r = 3 := by omega
        subst h3
        decide),
    (findStart_after_last_whitespace (bytes "ab cd") 2).2.1
      (fun q hq => by
        have h3 : q = 0 ∨ q = 1 := by omega
        rcases h3 with h3 | h3 <;> subst h3 <;> decide)⟩

/-- C10 on the file `ab cd` at offset 1: the first whitespace byte from 1 on is at offset 2,
and `findEnd` returns 2; from offset 3 on there is none and it returns the file size 5. -/
theorem findEnd_first_whitespace_witness :
    findEnd (bytes "ab cd") 1 (bytes "ab cd").length = 2
    ∧ findEnd (bytes "ab cd") 3 (bytes "ab cd").length = (bytes "ab cd").length :=
  ⟨(findEnd_first_whitespace (bytes "ab cd") 1).2.1 2 (by decide) (by decide) (by decide)
      (fun r h1 h2 => by
        have h3 : r = 1 := by omega
        subst h3
        decide),
    (findEnd_first_whitespace (bytes "ab cd") 3).2.2.1
      (fun q h1 h2 => by
        have h4 : q < 5 := h2
        have h3 : q = 3 ∨ q = 4 := by omega
        rcases h3 with h3 | h3 <;> subst h3 <;> decide)⟩

/-! ## C1 to C7: the pipeline on concrete files -/

/-- C1 (fails on the code): the merge is claimed to add the count `src` holds for a word to
the count of `dest`. On the empty `dest` and the table `src` built by adding the word `a`
twice, `src` holds 2 for `a` and `dest` holds 0, but after `mergeHash(dest, src)` the table
`dest` holds 1: `mergeHash` calls `add_word` once for the node and never reads its count. -/
theorem mergeHash_drops_src_count :
    count (add_word (add_word createHT (bytes "a")) (bytes "a")) (bytes "a") = 2
    ∧ count createHT (bytes "a") = 0
    ∧ count (mergeHash createHT (add_word (add_word createHT (bytes "a")) (bytes "a")))
        (bytes "a") = 1 := by
  refine ⟨?_, ?_, ?_⟩
  · rw [add_word_createHT, add_word_oneNodeTable, count_oneNodeTable]
    decide
  · exact count_createHT _
  · rw [count_mergeHash _ _ _ wellPlaced_createHT oneNodePerWord_createHT, count_createHT,
      nodes_add_word _ _ _ (wellPlaced_add_word _ _ wellPlaced_createHT),
      nodes_add_word _ _ _ wellPlaced_createHT, nodes_createHT]
    decide

/-- C2 (fails on the code): the global table is claimed to be the same for every number of
workers. For the file `a a` it holds `a` with count 1 under one worker and with count 2
under two workers. -/
theorem global_table_depends_on_num_threads :
    count (global_table (bytes "a a") 1) (bytes "a") = 1
    ∧ count (global_table (bytes "a a") 2) (bytes "a") = 2 := by
  refine ⟨?_, ?_⟩
  · rw [count_global_table]
    decide
  · rw [count_global_table]
    decide

/-- C3 (fails on the code): the counts of the global table are claimed to add up to the
number of tokens of the file. The file `a a` has two tokens and under one worker the counts
of its global table add up to 1. -/
theorem global_total_not_token_count :
    (specTokens (bytes "a a")).length = 2
    ∧ total (global_table (bytes "a a") 1) = 1 := by
  refine ⟨by decide, ?_⟩
  rw [total_global_table _ _ (by decide)]
  decide

/-- C4 (fails on the code): with one worker the count of a word is claimed to be its number
of occurrences in the file. In `the cat sat on the mat` the token `the` occurs twice, the
private table of the only worker holds 2 for it, and the global table holds 1. -/
theorem single_worker_count_of_the :
    occurrences (specTokens (bytes "the cat sat on the mat")) (bytes "the") = 2
    ∧ (worker_tables (bytes "the cat sat on the mat") 1).map (fun t => count t (bytes "the"))
        = [2]
    ∧ count (global_table (bytes "the cat sat on the mat") 1) (bytes "the") = 1 := by
  refine ⟨by decide, ?_, ?_⟩
  · have h : thread_args (bytes "the cat sat on the mat").length 1
        = [{ start_offset := 0, end_offset := 22 }] := by decide
    unfold worker_tables
    rw [h, List.map_cons, List.map_nil, List.map_cons, List.map_nil, count_process_chunk]
    decide
  · rw [count_global_table]
    decide

/-- C5 (fails on the code): every token is claimed to start inside the corrected range of
exactly one worker. For the file `ab` and two workers the raw ranges are `[0, 1)` and
`[1, 2)`, both corrected ranges are `[0, 2)`, and the token starting at offset 0 lies in
both. -/
theorem token_start_in_two_corrected_ranges :
    isTokenStart (bytes "ab") 0 = true
    ∧ thread_args (bytes "ab").length 2
        = [{ start_offset := 0, end_offset := 1 }, { start_offset := 1, end_offset := 2 }]
    ∧ (thread_args (bytes "ab").length 2).map (correctedRange (bytes "ab"))
        = [(0, 2), (0, 2)] := by
  decide

/-- C6 (fails on the code): the private table is claimed to count no token that starts at
or after the corrected end. For the file `a b` and the raw range `[0, 1)` the corrected
range is `[0, 1)`, the token `b` starts at offset 2, and the private table holds 1 for `b`:
the loop of `process_chunk` reads to the end of the file. -/
theorem process_chunk_reads_past_corrected_end :
    correctedRange (bytes "a b") { start_offset := 0, end_offset := 1 } = (0, 1)
    ∧ isTokenStart (bytes "a b") 2 = true
    ∧ count (process_chunk (bytes "a b") { start_offset := 0, end_offset := 1 }) (bytes "b")
        = 1 := by
  refine ⟨by decide, by decide, ?_⟩
  rw [count_process_chunk]
  decide

/-- C7 (fails on the code): a token that occurs once and has a raw chunk boundary strictly
inside it is claimed to have count 1 in the global table. For the file `ab` and two workers
the boundary is offset 1, inside the only token `ab`, and the global table holds 2 for
`ab`. -/
theorem boundary_token_counted_twice :
    specTokens (bytes "ab") = [bytes "ab"]
    ∧ (thread_args (bytes "ab").length 2).map (fun t_arg => t_arg.start_offset) = [0, 1]
    ∧ count (global_table (bytes "ab") 2) (bytes "ab") = 2 := by
  refine ⟨by decide, by decide, ?_⟩
  rw [count_global_table]
  decide

/-! ## One call of `fscanf` at a token -/

theorem dropWhile_space_prefix (pre l : List Nat) (h : ∀ b ∈ pre, isSpaceByte b = true) :
    (pre ++ l).dropWhile isSpaceByte = l.dropWhile isSpaceByte := by
  induction pre with
  | nil => rfl
  | cons b pre ih =>
    have hb : isSpaceByte b = true := h b (List.mem_cons_self b pre)
    rw [List.cons_append, List.dropWhile_cons, if_pos hb]
    exact ih (fun c hc => h c (List.mem_cons_of_mem b hc))

theorem dropWhile_token (t rest : List Nat) (h : ∀ b ∈ t, isSpaceByte b = false)
    (hne : t ≠ []) : (t ++ rest).dropWhile isSpaceByte = t ++ rest := by
  cases t with
  | nil => exact absurd rfl hne
  | cons b t =>
    have hb : isSpaceByte b = false := h b (List.mem_cons_self b t)
    rw [List.cons_append, List.dropWhile_cons]
    simp [hb]

theorem takeWhile_token (t rest : List Nat) (h : ∀ b ∈ t, isSpaceByte b = false)
    (hrest : rest = [] ∨ ∃ b tail, rest = b :: tail ∧ isSpaceByte b = true) :
    (t ++ rest).takeWhile (fun b => !isSpaceByte b) = t := by
  induction t with
  | nil =>
    rcases hrest with h0 | ⟨b, tail, h1, h2⟩
    · rw [h0]; rfl
    · rw [h1, List.nil_append, List.takeWhile_cons]
      simp [h2]
  | cons b t ih =>
    have hb : isSpaceByte b = false := h b (List.mem_cons_self b t)
    rw [List.cons_append, List.takeWhile_cons]
    simp only [hb, Bool.not_false, if_true]
    rw [ih (fun c hc => h c (List.mem_cons_of_mem b hc))]

/-- One call of `fscanf` in front of a token `t`: it stores the first `width` bytes of `t`
and leaves the read position right after them, inside `t` when `t` is longer. -/
theorem fscanf_s_token (width : Nat) (pre t rest : List Nat) (hw : 0 < width)
    (hpre : ∀ b ∈ pre, isSpaceByte b = true) (ht : ∀ b ∈ t, isSpaceByte b = false)
    (hne : t ≠ [])
    (hrest : rest = [] ∨ ∃ b tail, rest = b :: tail ∧ isSpaceByte b = true) :
    fscanf_s width (pre ++ t ++ rest) = some (t.take width, t.drop width ++ rest) := by
  unfold fscanf_s
  have hskip : (pre ++ t ++ rest).dropWhile isSpaceByte = t ++ rest := by
    rw [List.append_assoc, dropWhile_space_prefix pre _ hpre, dropWhile_token t rest ht hne]
  have hword : ((t ++ rest).takeWhile (fun b => !isSpaceByte b)).take width = t.take width := by
    rw [takeWhile_token t rest ht hrest]
  have hnonempty : t.take width ≠ [] := by
    cases t with
    | nil => exact absurd rfl hne
    | cons b t =>
      cases width with
      | zero => omega
      | succ k => simp
  have hdrop : (t ++ rest).drop (t.take width).length = t.drop width ++ rest := by
    rw [List.length_take]
    by_cases hle : width ≤ t.length
    · rw [Nat.min_eq_left hle, List.drop_append_of_le_length hle]
    · have hlt : t.length ≤ width := by omega
      rw [Nat.min_eq_right hlt, List.drop_left, List.drop_of_length_le hlt, List.nil_append]
  simp only [hskip, hword, hdrop, hnonempty, if_false]

/-! ## C8: a token longer than 255 bytes -/

/-- C8 (as stated, refuted): the bytes of a long token beyond the 255th are claimed to
produce no further word. The file of 256 bytes `a` is one token; the loop of
`process_chunk` reads two words from it, the first 255 bytes and then the last byte, and
the private table holds 1 for the word `a`. -/
theorem long_token_tail_is_a_word :
    specTokens (List.replicate 256 97) = [List.replicate 256 97]
    ∧ chunkWords (List.replicate 256 97) { start_offset := 0, end_offset := 256 }
        = [List.replicate 255 97, [97]]
    ∧ count (process_chunk (List.replicate 256 97) { start_offset := 0, end_offset := 256 })
        [97] = 1 := by
  set_option maxRecDepth 100000 in
  refine ⟨by decide, by decide, ?_⟩
  rw [count_process_chunk]
  set_option maxRecDepth 100000 in
  decide

/-- C8 (as amended): when the loop of `process_chunk` stands in front of a token `t` that
is longer than 255 bytes (after whitespace `pre`, before `rest`), its next two iterations
add the word made of the first 255 bytes of `t` and then the word made of the following
bytes of `t`, at most 255 of them, and the loop goes on from the 511th byte of `t`: the
token is cut into pieces of 255 bytes and every piece is added as a word. -/
theorem long_token_is_split (fuel : Nat) (ht : HashTable) (pre t rest : List Nat)
    (hpre : ∀ b ∈ pre, isSpaceByte b = true) (htok : ∀ b ∈ t, isSpaceByte b = false)
    (hlong : 255 < t.length)
    (hrest : rest = [] ∨ ∃ b tail, rest = b :: tail ∧ isSpaceByte b = true) :
    scanLoop (fuel + 2) ht (pre ++ t ++ rest)
        = scanLoop fuel (add_word (add_word ht (t.take 255)) ((t.drop 255).take 255))
            (t.drop 510 ++ rest)
    ∧ (t.drop 255).take 255 ≠ [] := by
  have hne : t ≠ [] := by
    intro h
    rw [h] at hlong
    simp at hlong
  have hne2 : t.drop 255 ≠ [] := by
    intro h
    have hl : (t.drop 255).length = 0 := by rw [h]; rfl
    rw [List.length_drop] at hl
    omega
  have htok2 : ∀ b ∈ t.drop 255, isSpaceByte b = false :=
    fun b hb => htok b (List.mem_of_mem_drop hb)
  have h1 := fscanf_s_token 255 pre t rest (by omega) hpre htok hne hrest
  have h2 := fscanf_s_token 255 [] (t.drop 255) rest (by omega)
    (fun b hb => by cases hb) htok2 hne2 hrest
  rw [List.nil_append, List.drop_drop] at h2
  constructor
  · show scanLoop (fuel + 1 + 1) ht (pre ++ t ++ rest) = _
    rw [scanLoop, h1]
    simp only
    rw [scanLoop, h2]
  · intro h
    have hl : ((t.drop 255).take 255).length = 0 := by rw [h]; rfl
    rw [List.length_take, List.length_drop] at hl
    omega

/-- C8 (as amended), on the file of 256 bytes `a`: the loop adds the first 255 bytes and then
the last byte. -/
theorem long_token_is_split_witness :
    255 < (List.replicate 256 97).length
    ∧ scanLoop (0 + 2) createHT ([] ++ List.replicate 256 97 ++ [])
        = scanLoop 0
            (add_word (add_word createHT ((List.replicate 256 97).take 255))
              (((List.replicate 256 97).drop 255).take 255))
            ((List.replicate 256 97).drop 510 ++ []) :=
  ⟨by rw [List.length_replicate]; decide,
    (long_token_is_split 0 createHT [] (List.replicate 256 97) []
      (fun b hb => by cases hb)
      (fun b hb => by rw [List.eq_of_mem_replicate hb]; decide)
      (by rw [List.length_replicate]; decide) (Or.inl rfl)).1⟩

/-! ## The loops end within their fuel -/

theorem fscanf_s_rest_lt (width : Nat) (input word rest : List Nat)
    (h : fscanf_s width input = some (word, rest)) : rest.length < input.length := by
  unfold fscanf_s at h
  simp only at h
  split at h
  · cases h
  · rename_i hne
    simp only [Option.some.injEq, Prod.mk.injEq] at h
    obtain ⟨hw, hr⟩ := h
    have hlen : 0 < word.length := by
      rw [← hw]
      exact List.length_pos.mpr hne
    have hle : word.length ≤ (input.dropWhile isSpaceByte).length := by
      rw [← hw]
      calc (List.take width (List.takeWhile (fun b => !isSpaceByte b)
              (List.dropWhile isSpaceByte input))).length
          ≤ (List.takeWhile (fun b => !isSpaceByte b)
              (List.dropWhile isSpaceByte input)).length := by
            rw [List.length_take]; exact Nat.min_le_right _ _
        _ ≤ (List.dropWhile isSpaceByte input).length :=
            (List.takeWhile_sublist _).length_le
    have hdw : (input.dropWhile isSpaceByte).length ≤ input.length :=
      (List.dropWhile_sublist _).length_le
    rw [← hr, hw, List.length_drop]
    omega

/-- The loop of `process_chunk` ends by itself: once the fuel exceeds the number of bytes
left, more fuel does not change the table. -/
theorem scanLoop_enough_fuel (fuel fuel2 : Nat) (ht : HashTable) (input : List Nat)
    (h1 : input.length < fuel) (h2 : input.length < fuel2) :
    scanLoop fuel ht input = scanLoop fuel2 ht input := by
  induction fuel generalizing fuel2 ht input with
  | zero => omega
  | succ k ih =>
    cases fuel2 with
    | zero => omega
    | succ k2 =>
      unfold scanLoop
      cases hf : fscanf_s 255 input with
      | none => rfl
      | some p =>
        obtain ⟨word, rest⟩ := p
        have hlt := fscanf_s_rest_lt 255 input word rest hf
        exact ih k2 _ rest (by omega) (by omega)

/-- The fuel of `process_chunk` is enough for every corrected start. -/
theorem process_chunk_enough_fuel (file : List Nat) (t_arg : ThreadArg) (fuel : Nat)
    (h : file.length < fuel) :
    scanLoop fuel createHT (file.drop (findStart file t_arg.start_offset))
      = process_chunk file t_arg := by
  unfold process_chunk
  apply scanLoop_enough_fuel
  · rw [List.length_drop]; omega
  · rw [List.length_drop]; omega

/-- The loop of `findEnd` ends by itself: from `file_size - pos` on, more fuel does not
change the result. -/
theorem findEndScan_enough_fuel (file : List Nat) (S fuel fuel2 pos : Nat)
    (h1 : S ≤ pos + fuel) (h2 : S ≤ pos + fuel2) :
    findEndScan file S fuel pos = findEndScan file S fuel2 pos := by
  induction fuel generalizing fuel2 pos with
  | zero =>
    cases fuel2 with
    | zero => rfl
    | succ k2 =>
      unfold findEndScan
      rw [if_neg (by omega)]
  | succ k ih =>
    cases fuel2 with
    | zero =>
      unfold findEndScan
      rw [if_neg (by omega)]
    | succ k2 =>
      unfold findEndScan
      by_cases hlt : pos < S
      · rw [if_pos hlt, if_pos hlt, ih k2 (pos + 1) (by omega) (by omega)]
      · rw [if_neg hlt, if_neg hlt]

/-! ## C11: the raw ranges of the planner -/

theorem thread_args_length (S N : Nat) : (thread_args S N).length = N := by
  unfold thread_args
  simp

theorem thread_args_getElem? (S N i : Nat) (h : i < N) :
    (thread_args S N)[i]? = some (ThreadArg.mk (i * (S / N))
      (if i = N - 1 then S else (i + 1) * (S / N))) := by
  unfold thread_args
  simp only [List.getElem?_modify, List.getElem?_map, List.getElem?_range h, Option.map_some',
    Option.map_eq_map]
  by_cases hi : i = N - 1
  · subst hi
    simp
  · have hi2 : ¬ N - 1 = i := fun e => hi e.symm
    simp [hi, hi2]

theorem thread_args_mem (S N : Nat) (a : ThreadArg) (h : a ∈ thread_args S N) :
    ∃ i, i < N ∧ a = ThreadArg.mk (i * (S / N))
      (if i = N - 1 then S else (i + 1) * (S / N)) := by
  rcases List.getElem?_of_mem h with ⟨i, hi⟩
  have hlt : i < N := by
    have := (List.getElem?_eq_some.mp hi).1
    rw [thread_args_length] at this
    exact this
  rw [thread_args_getElem? S N i hlt] at hi
  exact ⟨i, hlt, (Option.some.inj hi).symm⟩

/-- C11: for every file size `S` and every `N ≥ 1` the `N` raw ranges computed in `main`
tile `[0, S)`: there are `N` of them, the first starts at 0, the last ends at `S`, every
range has `start ≤ end`, and the end of range `i` is the start of range `i + 1`; when
`N > S` every range but the last is empty. -/
theorem raw_ranges_tile (S N : Nat) (hN : 1 ≤ N) :
    (thread_args S N).length = N
    ∧ (thread_args S N)[0]?.map (fun a => a.start_offset) = some 0
    ∧ (thread_args S N)[N - 1]?.map (fun a => a.end_offset) = some S
    ∧ (∀ a ∈ thread_args S N, a.start_offset ≤ a.end_offset)
    ∧ (∀ i a b, (thread_args S N)[i]? = some a → (thread_args S N)[i + 1]? = some b →
        a.end_offset = b.start_offset)
    ∧ (S < N → ∀ i a, i + 1 < N → (thread_args S N)[i]? = some a →
        a.start_offset = a.end_offset) := by
  refine ⟨thread_args_length S N, ?_, ?_, ?_, ?_, ?_⟩
  · rw [thread_args_getElem? S N 0 (by omega)]
    simp
  · rw [thread_args_getElem? S N (N - 1) (by omega)]
    simp
  · intro a ha
    rcases thread_args_mem S N a ha with ⟨i, hi, rfl⟩
    by_cases hl : i = N - 1
    · simp only [hl, if_true]
      calc (N - 1) * (S / N) ≤ N * (S / N) := Nat.mul_le_mul_right _ (by omega)
        _ ≤ S := Nat.mul_div_le S N
    · simp only [hl, if_false]
      exact Nat.mul_le_mul_right _ (by omega)
  · intro i a b ha hb
    have hlt : i + 1 < N := by
      have := (List.getElem?_eq_some.mp hb).1
      rw [thread_args_length] at this
      exact this
    rw [thread_args_getElem? S N i (by omega)] at ha
    rw [thread_args_getElem? S N (i + 1) hlt] at hb
    have ha2 := Option.some.inj ha
    have hb2 := Option.some.inj hb
    rw [← ha2, ← hb2]
    have hl : ¬ i = N - 1 := by omega
    simp only [hl, if_false]
  · intro hSN i a hi ha
    rw [thread_args_getElem? S N i (by omega)] at ha
    have ha2 := Option.some.inj ha
    rw [← ha2]
    have hl : ¬ i = N - 1 := by omega
    have hz : S / N = 0 := Nat.div_eq_of_lt hSN
    simp only [hl, if_false, hz, Nat.mul_zero]

/-- C11 on a file of 22 bytes and 3 workers: the raw ranges are `[0, 7)`, `[7, 14)` and
`[14, 22)`. -/
theorem raw_ranges_tile_witness :
    thread_args 22 3 = [ThreadArg.mk 0 7, ThreadArg.mk 7 14, ThreadArg.mk 14 22]
    ∧ (thread_args 22 3).length = 3
    ∧ (thread_args 22 3)[3 - 1]?.map (fun a => a.end_offset) = some 22 :=
  ⟨by decide, (raw_ranges_tile 22 3 (by decide)).1, (raw_ranges_tile 22 3 (by decide)).2.2.1⟩

/-! ## C12: at most one node per word -/

/-- C12: the predicate `no two nodes of the table hold the same word` holds for the table
returned by `createHT`, is preserved by `add_word` and by `mergeHash` (on its `dest` table)
for tables whose nodes sit in the bucket of their word, as those of every table the program
builds do, and so every table reachable through these operations has at most one node per
distinct word. -/
theorem one_node_per_word_invariant :
    OneNodePerWord createHT
    ∧ (∀ ht word, WellPlaced ht → OneNodePerWord ht → OneNodePerWord (add_word ht word))
    ∧ (∀ dest src, WellPlaced dest → OneNodePerWord dest →
        OneNodePerWord (mergeHash dest src))
    ∧ (∀ ht, Reachable ht → WellPlaced ht ∧ ∀ w, nodes ht w ≤ 1) :=
  ⟨oneNodePerWord_createHT, oneNodePerWord_add_word, oneNodePerWord_mergeHash,
    fun ht h => ⟨reachable_wellPlaced ht h, reachable_oneNodePerWord ht h⟩⟩

/-! ## C13: the effect of `add_word` on the counts -/

theorem nodes_add_word_absent (ht : HashTable) (w : List Nat) (h0 : nodes ht w = 0) :
    nodes (add_word ht w) w = 1 := by
  have h := add_word_sum (fun e => if strcmp_eq e.word w then 1 else 0) ht w
  have hb := bucket_nodes_le ht w (hashFunc w) (hashFunc_lt w)
  rw [chainAfter_nodes, if_pos ⟨strcmp_eq_self w, by omega⟩] at h
  unfold nodes at h0 ⊢
  omega

theorem nodes_add_word_present (ht : HashTable) (w v : List Nat) (hp : WellPlaced ht)
    (hpos : 0 < nodes ht w) : nodes (add_word ht w) v = nodes ht v := by
  rw [nodes_add_word ht w v hp]
  by_cases hwv : strcmp_eq w v = true
  · rw [← nodes_congr ht w v hwv, if_neg (fun hc => by omega), Nat.add_zero]
  · rw [if_neg (fun hc => hwv hc.1), Nat.add_zero]

/-- C13 (as stated, refuted): `add_word` is claimed to raise the count of the word by
exactly 1 in every table with at most one node per word. The table with the single node
`(a, 2147483647)` is the table a worker has built once it has read the word `a`
2147483647 times; it has one node per word, and `add_word` takes the count of `a` from
2147483647 to -2147483648: the `int` increment `entry->count++` overflows. -/
theorem add_word_overflows_int_count :
    oneNodeTable (bytes "a") 2147483647
        = (List.replicate 2147483647 (bytes "a")).foldl add_word createHT
    ∧ Reachable (oneNodeTable (bytes "a") 2147483647)
    ∧ OneNodePerWord (oneNodeTable (bytes "a") 2147483647)
    ∧ count (oneNodeTable (bytes "a") 2147483647) (bytes "a") = 2147483647
    ∧ count (add_word (oneNodeTable (bytes "a") 2147483647) (bytes "a")) (bytes "a")
        = -2147483648 := by
  have heq := oneNodeTable_eq_foldl (bytes "a") 2147483647 (by norm_num) (by norm_num)
  have hre := reachable_oneNodeTable (bytes "a") 2147483647 (by norm_num) (by norm_num)
  rw [Nat.cast_ofNat] at heq hre
  refine ⟨heq, hre, oneNodePerWord_oneNodeTable _ _, ?_, ?_⟩
  · rw [count_oneNodeTable]
    decide
  · rw [add_word_oneNodeTable, count_oneNodeTable]
    decide

/-- C13 (as amended): for every table with at most one node per word and every word `w`
whose count in the table is an `int` below 2147483647, `add_word(table, w)` raises the count
of `w` by exactly 1 and leaves the count of every other word unchanged. When no node held
`w` the count goes from 0 to 1 and the table has one node for `w` afterwards; when a node
held `w` (in a table whose nodes sit in the bucket of their word) no node is added, the
count of that node is incremented. -/
theorem add_word_raises_one_count (ht : HashTable) (w : List Nat) (h : OneNodePerWord ht)
    (hlo : -2147483648 ≤ count ht w) (hhi : count ht w < 2147483647) :
    count (add_word ht w) w = count ht w + 1
    ∧ (nodes ht w = 0 →
        count ht w = 0 ∧ count (add_word ht w) w = 1 ∧ nodes (add_word ht w) w = 1)
    ∧ (WellPlaced ht → 0 < nodes ht w → ∀ v, nodes (add_word ht w) v = nodes ht v)
    ∧ (∀ v, strcmp_eq w v = false → count (add_word ht w) v = count ht v) := by
  have hstep := count_add_word_bounded ht w w (strcmp_eq_self w) (h w) (by omega) hhi
  refine ⟨hstep, ?_, ?_, ?_⟩
  · intro h0
    have hc := count_zero_of_nodes_zero ht w h0
    refine ⟨hc, ?_, nodes_add_word_absent ht w h0⟩
    rw [hstep, hc, Int.zero_add]
  · intro hp hpos v
    exact nodes_add_word_present ht w v hp hpos
  · intro v hv
    exact count_add_word_other ht w v hv

/-- C13 (as amended) on the table that holds the word `a` once: adding `a` again gives the
count 2, adds no node and leaves the count of `b` at 0. -/
theorem add_word_raises_one_count_witness :
    count (add_word createHT (bytes "a")) (bytes "a") < 2147483647
    ∧ count (add_word (add_word createHT (bytes "a")) (bytes "a")) (bytes "a")
        = count (add_word createHT (bytes "a")) (bytes "a") + 1
    ∧ count (add_word (add_word createHT (bytes "a")) (bytes "a")) (bytes "b")
        = count (add_word createHT (bytes "a")) (bytes "b") :=
  ⟨by rw [add_word_createHT, count_oneNodeTable]; decide,
    (add_word_raises_one_count (add_word createHT (bytes "a")) (bytes "a")
      (oneNodePerWord_add_word _ _ wellPlaced_createHT oneNodePerWord_createHT)
      (by rw [add_word_createHT, count_oneNodeTable]; decide)
      (by rw [add_word_createHT, count_oneNodeTable]; decide)).1,
    (add_word_raises_one_count (add_word createHT (bytes "a")) (bytes "a")
      (oneNodePerWord_add_word _ _ wellPlaced_createHT oneNodePerWord_createHT)
      (by rw [add_word_createHT, count_oneNodeTable]; decide)
      (by rw [add_word_createHT, count_oneNodeTable]; decide)).2.2.2
      (bytes "b") (by decide)⟩

/-! ## C14: grouping of merges -/

/-- C14 (fails on the code): merging `(A, B)` and then `C` is claimed to give the same
counts as merging `A` with the merge of `(B, C)`. With `A` empty and `B` and `C` each
holding the word `a` once, the first grouping gives `a` the count 2 and the second the
count 1: `mergeHash` adds 1 per node of its source whatever count the node holds. -/
theorem mergeHash_grouping_changes_counts :
    count (mergeHash (mergeHash createHT (add_word createHT (bytes "a")))
        (add_word createHT (bytes "a"))) (bytes "a") = 2
    ∧ count (mergeHash createHT
        (mergeHash (add_word createHT (bytes "a")) (add_word createHT (bytes "a"))))
        (bytes "a") = 1 := by
  refine ⟨?_, ?_⟩
  · rw [count_mergeHash _ _ _ (wellPlaced_mergeHash _ _ wellPlaced_createHT)
        (oneNodePerWord_mergeHash _ _ wellPlaced_createHT oneNodePerWord_createHT),
      count_mergeHash _ _ _ wellPlaced_createHT oneNodePerWord_createHT, count_createHT,
      nodes_add_word _ _ _ wellPlaced_createHT, nodes_createHT]
    decide
  · rw [count_mergeHash _ _ _ wellPlaced_createHT oneNodePerWord_createHT, count_createHT,
      nodes_mergeHash _ _ _ (wellPlaced_add_word _ _ wellPlaced_createHT),
      nodes_add_word _ _ _ wellPlaced_createHT, nodes_createHT]
    decide

/-! ## C16: the order of the merges -/

/-- C16: folding a list of private tables with `mergeHash` into an empty global table
gives, for every word, the same count in every permutation of the list. -/
theorem merge_order_independent (ts ts2 : List HashTable) (h : ts.Perm ts2) (w : List Nat) :
    count (ts.foldl mergeHash createHT) w = count (ts2.foldl mergeHash createHT) w := by
  rw [count_merge_all _ _ _ wellPlaced_createHT oneNodePerWord_createHT,
    count_merge_all _ _ _ wellPlaced_createHT oneNodePerWord_createHT,
    (h.map (fun t => nodes t w)).sum_eq]

/-- C16 on two private tables, one holding `a` and one holding `b`, merged in both
orders. -/
theorem merge_order_independent_witness :
    count ([add_word createHT (bytes "a"), add_word createHT (bytes "b")].foldl
        mergeHash createHT) (bytes "a")
      = count ([add_word createHT (bytes "b"), add_word createHT (bytes "a")].foldl
        mergeHash createHT) (bytes "a") :=
  merge_order_independent _ _ (List.Perm.swap _ _ _) (bytes "a")

/-! ## C17: the overlap at a shared boundary -/

/-- C17: for every file and every raw boundary `p`, the overlap
`[findStart(p), findEnd(p, S))` of a worker's corrected end with the next worker's corrected
start holds no whitespace byte, and so at most one token starts in it. This holds for every
`p`, in particular for `0 ≤ p ≤ S`. -/
theorem boundary_overlap_one_token (file : List Nat) (p : Nat) :
    (∀ r, findStart file p ≤ r → r < findEnd file p file.length →
        isspace (fgetc file r) = false)
    ∧ (∀ t1 t2, findStart file p ≤ t1 → t1 < findEnd file p file.length →
        findStart file p ≤ t2 → t2 < findEnd file p file.length →
        isTokenStart file t1 = true → isTokenStart file t2 = true → t1 = t2) := by
  have hclear : ∀ r, findStart file p ≤ r → r < findEnd file p file.length →
      isspace (fgetc file r) = false := by
    intro r h1 h2
    by_cases hr : r < p
    · exact findStart_clear file p r h1 hr
    · exact findEnd_clear file p file.length r (by omega) h2
  refine ⟨hclear, ?_⟩
  have hlt : ∀ t1 t2, findStart file p ≤ t1 → t2 < findEnd file p file.length →
      isTokenStart file t2 = true → ¬ t1 < t2 := by
    intro t1 t2 h1 h2 hs hlt
    unfold isTokenStart at hs
    simp only [Bool.and_eq_true, Bool.or_eq_true, beq_iff_eq] at hs
    rcases hs.2 with h0 | hws
    · omega
    · rw [hclear (t2 - 1) (by omega) (by omega)] at hws
      cases hws
  intro t1 t2 a1 b1 a2 b2 s1 s2
  have h12 := hlt t1 t2 a1 b2 s2
  have h21 := hlt t2 t1 a2 b1 s1
  omega

/-- C17 on the file `ab cd` at the boundary 1: the overlap is `[0, 2)`, the token `ab`. -/
theorem boundary_overlap_one_token_witness :
    findStart (bytes "ab cd") 1 = 0
    ∧ findEnd (bytes "ab cd") 1 (bytes "ab cd").length = 2
    ∧ isspace (fgetc (bytes "ab cd") 1) = false :=
  ⟨by decide, by decide,
    (boundary_overlap_one_token (bytes "ab cd") 1).1 1 (by decide) (by decide)⟩

/-! ## C19: the bucket index -/

theorem hashStep_lt (hash b : Nat) : hashStep hash b < 2 ^ 64 := by
  unfold hashStep
  have hpos : (0 : Int) < 2 ^ 64 := by norm_num
  have h1 := Int.emod_lt_of_pos
    ((((hash * 32 % 2 ^ 64 + hash) % 2 ^ 64 : Nat) : Int) + charToInt b) hpos
  have h2 := Int.emod_nonneg
    ((((hash * 32 % 2 ^ 64 + hash) % 2 ^ 64 : Nat) : Int) + charToInt b) (ne_of_gt hpos)
  change (((((hash * 32 % 2 ^ 64 + hash) % 2 ^ 64 : Nat) : Int) + charToInt b)
      % 2 ^ 64).toNat < 2 ^ 64
  rw [Int.toNat_lt h2]
  exact_mod_cast h1

/-- C19: for every byte string `w`, bytes of 128 and more being read as negative `char`s
and the running hash wrapping at 64 bits, `hashFunc(w)` is below
`HASH_TABLE_SIZE = 10000000`, and `add_word` leaves every bucket but that of `hashFunc(w)`
as it was: the index it uses is within the bucket array. -/
theorem hashFunc_within_bucket_array (w : List Nat) :
    hashFunc w < HASH_TABLE_SIZE
    ∧ HASH_TABLE_SIZE = 10000000
    ∧ (∀ hash b, hashStep hash b < 2 ^ 64)
    ∧ (∀ ht i, i ≠ hashFunc w → (add_word ht w).buckets i = ht.buckets i) := by
  refine ⟨?_, ?_, hashStep_lt, ?_⟩
  · unfold hashFunc HASH_TABLE_SIZE
    exact Nat.mod_lt _ (by norm_num)
  · unfold HASH_TABLE_SIZE
    rfl
  · intro ht i hi
    rw [add_word_eq]
    exact Function.update_noteq hi _ _

/-- C19 on the one-byte word of the byte 200, read as the `char` -56: the hash is
`5381 * 33 - 56`. -/
theorem hashFunc_within_bucket_array_witness :
    hashFunc [200] = 177517 ∧ hashFunc [200] < HASH_TABLE_SIZE :=
  ⟨by unfold hashFunc HASH_TABLE_SIZE; decide, (hashFunc_within_bucket_array [200]).1⟩

/-! ## C18: where `add_word` puts a new node -/

theorem add_word_bucket_other (ht : HashTable) (w : List Nat) (i : Nat)
    (hi : i ≠ hashFunc w) : (add_word ht w).buckets i = ht.buckets i := by
  rw [add_word_eq]
  exact Function.update_noteq hi _ _

theorem add_word_bucket_same (ht : HashTable) (w : List Nat) :
    (add_word ht w).buckets (hashFunc w) = chainAfter w (ht.buckets (hashFunc w)) := by
  rw [add_word_eq]
  exact Function.update_same _ _ _

/-- C18: for every table and every word `w` that no node holds, `add_word(table, w)` makes a
new node with a copy of `w` and the count 1 the head of bucket `hashFunc(w)`, followed by the
previous chain of that bucket, and leaves every other bucket as it was. When a node holds
`w` already (in a table whose nodes sit in the bucket of their word, as in every table the
program builds), every bucket keeps its nodes in their order: no node is added or
reordered. -/
theorem add_word_prepends_new_node (ht : HashTable) (w : List Nat) :
    (nodes ht w = 0 →
        (add_word ht w).buckets (hashFunc w)
          = Entry.mk (cstr w) 1 :: ht.buckets (hashFunc w))
    ∧ (∀ i, i ≠ hashFunc w → (add_word ht w).buckets i = ht.buckets i)
    ∧ (WellPlaced ht → 0 < nodes ht w →
        ∀ i, ((add_word ht w).buckets i).map (fun e => e.word)
          = (ht.buckets i).map (fun e => e.word)) := by
  refine ⟨?_, add_word_bucket_other ht w, ?_⟩
  · intro h0
    have hb := bucket_nodes_le ht w (hashFunc w) (hashFunc_lt w)
    have hnone := (bumpChain_none_iff w (ht.buckets (hashFunc w))).mpr (by omega)
    rw [add_word_bucket_same]
    unfold chainAfter
    rw [hnone]
  · intro hp hpos i
    by_cases hi : i = hashFunc w
    · subst hi
      rw [add_word_bucket_same]
      unfold chainAfter
      cases hb : bumpChain w (ht.buckets (hashFunc w)) with
      | none =>
        have h0 := (bumpChain_none_iff w _).mp hb
        rw [← nodes_eq_bucket ht w hp] at h0
        omega
      | some bumped => exact bumpChain_words w _ bumped hb
    · rw [add_word_bucket_other ht w i hi]

/-- C18 on the empty table and then on the table that holds `a`: the first `add_word`
puts the node `(a, 1)` at the head of the bucket of `a`, the second adds no node there. -/
theorem add_word_prepends_new_node_witness :
    (add_word createHT (bytes "a")).buckets (hashFunc (bytes "a"))
        = Entry.mk (cstr (bytes "a")) 1 :: createHT.buckets (hashFunc (bytes "a"))
    ∧ ((add_word (add_word createHT (bytes "a")) (bytes "a")).buckets
          (hashFunc (bytes "a"))).map (fun e => e.word)
        = ((add_word createHT (bytes "a")).buckets (hashFunc (bytes "a"))).map
          (fun e => e.word) :=
  ⟨(add_word_prepends_new_node createHT (bytes "a")).1 (nodes_createHT _),
    (add_word_prepends_new_node (add_word createHT (bytes "a")) (bytes "a")).2.2
      (wellPlaced_add_word _ _ wellPlaced_createHT)
      (by
        rw [nodes_add_word _ _ _ wellPlaced_createHT, nodes_createHT]
        decide)
      (hashFunc (bytes "a"))⟩

/-! ## C20: what `mergeHash` does to the counts -/

/-- C20 (as stated, refuted): after `mergeHash(dest, src)` the count of a word of `src` in
`dest` is claimed to be its previous count plus 1. With `dest` the table of the single node
`(a, 2147483647)`, which a worker builds by reading `a` 2147483647 times, and `src` the
table that holds `a` once, both with one node per word, the count of `a` in `dest` goes
from 2147483647 to -2147483648: the `int` increment in `add_word` overflows. -/
theorem mergeHash_overflows_int_count :
    Reachable (oneNodeTable (bytes "a") 2147483647)
    ∧ OneNodePerWord (oneNodeTable (bytes "a") 2147483647)
    ∧ OneNodePerWord (add_word createHT (bytes "a"))
    ∧ count (oneNodeTable (bytes "a") 2147483647) (bytes "a") = 2147483647
    ∧ 0 < nodes (add_word createHT (bytes "a")) (bytes "a")
    ∧ count (mergeHash (oneNodeTable (bytes "a") 2147483647) (add_word createHT (bytes "a")))
        (bytes "a") = -2147483648 := by
  have hre := reachable_oneNodeTable (bytes "a") 2147483647 (by norm_num) (by norm_num)
  rw [Nat.cast_ofNat] at hre
  refine ⟨hre, oneNodePerWord_oneNodeTable _ _,
    oneNodePerWord_add_word _ _ wellPlaced_createHT oneNodePerWord_createHT, ?_, ?_, ?_⟩
  · rw [count_oneNodeTable]
    decide
  · rw [add_word_createHT, nodes_oneNodeTable]
    decide
  · rw [count_mergeHash _ _ _ (reachable_wellPlaced _ hre) (oneNodePerWord_oneNodeTable _ _),
      add_word_createHT, nodes_oneNodeTable, count_oneNodeTable]
    decide

/-- C20 (as amended): `mergeHash(dest, src)` calls `add_word` on `dest` once per node of
`src`, in the order of the buckets and chains of `src`. For `dest` and `src` with at most
one node per word, and a word `w` whose count in `dest` is an `int` below 2147483647, the
count of `w` in `dest` is afterwards its previous count plus 1 if a node of `src` holds `w`
and plus 0 otherwise, whatever count that node holds. The table `src` is the same after the
call as before. -/
theorem mergeHash_adds_one_per_node (dest src : HashTable) (hd : OneNodePerWord dest)
    (hs : OneNodePerWord src) (w : List Nat) (hlo : -2147483648 ≤ count dest w)
    (hhi : count dest w < 2147483647) :
    mergeHash dest src = ((entries src).map (fun e => e.word)).foldl add_word dest
    ∧ count (mergeHash dest src) w = count dest w + (if 0 < nodes src w then 1 else 0)
    ∧ (mergeHashCall dest src).1 = mergeHash dest src
    ∧ (mergeHashCall dest src).2 = src := by
  refine ⟨mergeHash_eq dest src, ?_, rfl, rfl⟩
  rw [count_mergeHash_once dest src w (hd w) (hs w) (by omega) hhi]
  have h1 := hs w
  by_cases h0 : 0 < nodes src w
  · rw [if_pos h0]
    have h2 : nodes src w = 1 := by omega
    rw [h2, Nat.cast_one]
  · rw [if_neg h0]
    have h2 : nodes src w = 0 := by omega
    rw [h2, Nat.cast_zero]

/-- C20 (as amended) with `dest` holding `a` once and `src` holding `a` with the count 2:
afterwards `dest` holds 2 for `a`, one more than before. -/
theorem mergeHash_adds_one_per_node_witness :
    count (add_word (add_word createHT (bytes "a")) (bytes "a")) (bytes "a") = 2
    ∧ count (mergeHash (add_word createHT (bytes "a"))
        (add_word (add_word createHT (bytes "a")) (bytes "a"))) (bytes "a")
      = count (add_word createHT (bytes "a")) (bytes "a")
        + (if 0 < nodes (add_word (add_word createHT (bytes "a")) (bytes "a")) (bytes "a")
          then 1 else 0) :=
  ⟨by rw [add_word_createHT, add_word_oneNodeTable, count_oneNodeTable]; decide,
    (mergeHash_adds_one_per_node (add_word createHT (bytes "a"))
      (add_word (add_word createHT (bytes "a")) (bytes "a"))
      (oneNodePerWord_add_word _ _ wellPlaced_createHT oneNodePerWord_createHT)
      (oneNodePerWord_add_word _ _ (wellPlaced_add_word _ _ wellPlaced_createHT)
        (oneNodePerWord_add_word _ _ wellPlaced_createHT oneNodePerWord_createHT))
      (bytes "a")
      (by rw [add_word_createHT, count_oneNodeTable]; decide)
      (by rw [add_word_createHT, count_oneNodeTable]; decide)).2.1⟩

/-! ## Tokens of a file -/

theorem specTokens_nil : specTokens [] = [] := by
  unfold specTokens
  rw [List.splitOnP_nil]
  rfl

theorem specTokens_space_cons (b : Nat) (l : List Nat) (hb : isSpaceByte b = true) :
    specTokens (b :: l) = specTokens l := by
  unfold specTokens
  rw [List.splitOnP_cons, if_pos hb, List.filter_cons]
  simp

theorem splitOnP_append_sep (p : Nat → Bool) (a r : List Nat) (sep : Nat)
    (hsep : p sep = true) :
    (a ++ sep :: r).splitOnP p = a.splitOnP p ++ r.splitOnP p := by
  induction a with
  | nil => rw [List.nil_append, List.splitOnP_cons, if_pos hsep, List.splitOnP_nil]; rfl
  | cons b a ih =>
    rw [List.cons_append, List.splitOnP_cons, List.splitOnP_cons, ih]
    by_cases hb : p b = true
    · rw [if_pos hb, if_pos hb]; rfl
    · rw [if_neg hb, if_neg hb]
      cases hs : a.splitOnP p with
      | nil => exact absurd hs (List.splitOnP_ne_nil p a)
      | cons hd tl => rfl

theorem specTokens_append_sep (a r : List Nat) (sep : Nat) (hsep : isSpaceByte sep = true) :
    specTokens (a ++ sep :: r) = specTokens a ++ specTokens r := by
  unfold specTokens
  rw [splitOnP_append_sep isSpaceByte a r sep hsep, List.filter_append]

theorem specTokens_single (t : List Nat) (ht : ∀ b ∈ t, isSpaceByte b = false)
    (hne : t ≠ []) : specTokens t = [t] := by
  unfold specTokens
  rw [List.splitOnP_eq_single isSpaceByte t (fun b hb => by rw [ht b hb]; simp)]
  simp [hne]

theorem specTokens_all_space (l : List Nat) (h : ∀ b ∈ l, isSpaceByte b = true) :
    specTokens l = [] := by
  induction l with
  | nil => exact specTokens_nil
  | cons b l ih =>
    rw [specTokens_space_cons b l (h b (List.mem_cons_self b l))]
    exact ih (fun c hc => h c (List.mem_cons_of_mem b hc))

theorem specTokens_space_prefix (pre l : List Nat) (h : ∀ b ∈ pre, isSpaceByte b = true) :
    specTokens (pre ++ l) = specTokens l := by
  induction pre with
  | nil => rfl
  | cons b pre ih =>
    rw [List.cons_append, specTokens_space_cons b _ (h b (List.mem_cons_self b pre))]
    exact ih (fun c hc => h c (List.mem_cons_of_mem b hc))

/-- The tokens of a file that starts with whitespace `pre` and the token `t`. -/
theorem specTokens_token (pre t rest : List Nat) (hpre : ∀ b ∈ pre, isSpaceByte b = true)
    (ht : ∀ b ∈ t, isSpaceByte b = false) (hne : t ≠ [])
    (hrest : rest = [] ∨ ∃ b tail, rest = b :: tail ∧ isSpaceByte b = true) :
    specTokens (pre ++ t ++ rest) = t :: specTokens rest := by
  rw [List.append_assoc, specTokens_space_prefix pre _ hpre]
  rcases hrest with h0 | ⟨b, tail, h1, h2⟩
  · rw [h0, List.append_nil, specTokens_single t ht hne, specTokens_nil]
  · rw [h1, specTokens_append_sep t tail b h2, specTokens_single t ht hne,
      specTokens_space_cons b tail h2]
    rfl

/-- A list of bytes is all whitespace, or it is whitespace, then a token, then the rest. -/
theorem token_decomposition (l : List Nat) :
    (∀ b ∈ l, isSpaceByte b = true)
    ∨ ∃ pre t rest, l = pre ++ t ++ rest ∧ (∀ b ∈ pre, isSpaceByte b = true)
        ∧ (∀ b ∈ t, isSpaceByte b = false) ∧ t ≠ []
        ∧ (rest = [] ∨ ∃ b tail, rest = b :: tail ∧ isSpaceByte b = true) := by
  by_cases hall : ∀ b ∈ l, isSpaceByte b = true
  · left; exact hall
  · right
    have hskip : l.dropWhile isSpaceByte ≠ [] := by
      intro h
      exact hall (List.dropWhile_eq_nil_iff.mp h)
    refine ⟨l.takeWhile isSpaceByte,
      (l.dropWhile isSpaceByte).takeWhile (fun b => !isSpaceByte b),
      (l.dropWhile isSpaceByte).dropWhile (fun b => !isSpaceByte b), ?_, ?_, ?_, ?_, ?_⟩
    · rw [List.append_assoc, List.takeWhile_append_dropWhile,
        List.takeWhile_append_dropWhile]
    · intro b hb
      exact List.mem_takeWhile_imp hb
    · intro b hb
      have := List.mem_takeWhile_imp hb
      simpa using this
    · have hhead := List.head_dropWhile_not isSpaceByte l hskip
      cases hd : l.dropWhile isSpaceByte with
      | nil => exact absurd hd hskip
      | cons x xs =>
        simp only [hd, List.head_cons] at hhead
        rw [List.takeWhile_cons]
        simp [hhead]
    · cases hd : (l.dropWhile isSpaceByte).dropWhile (fun b => !isSpaceByte b) with
      | nil => left; rfl
      | cons x xs =>
        right
        have hne : (l.dropWhile isSpaceByte).dropWhile (fun b => !isSpaceByte b) ≠ [] := by
          rw [hd]; exact List.cons_ne_nil x xs
        have hhead := List.head_dropWhile_not (fun b => !isSpaceByte b)
          (l.dropWhile isSpaceByte) hne
        simp only [hd, List.head_cons] at hhead
        exact ⟨x, xs, rfl, by simpa using hhead⟩

/-! ## The words a worker reads are tokens of the file -/

theorem fscanf_s_all_space (width : Nat) (l : List Nat)
    (h : ∀ b ∈ l, isSpaceByte b = true) : fscanf_s width l = none := by
  unfold fscanf_s
  have hd : l.dropWhile isSpaceByte = [] := List.dropWhile_eq_nil_iff.mpr h
  simp [hd]

/-- When no token is longer than 255 bytes, the loop of `process_chunk` reads exactly the
tokens of the bytes in front of it. -/
theorem scanWords_eq_specTokens (fuel : Nat) (l : List Nat) (hf : l.length < fuel)
    (hshort : ∀ t ∈ specTokens l, t.length ≤ 255) : scanWords fuel l = specTokens l := by
  induction fuel generalizing l with
  | zero => omega
  | succ k ih =>
    rcases token_decomposition l with hall | ⟨pre, t, rest, hl, hpre, ht, hne, hrest⟩
    · unfold scanWords
      rw [fscanf_s_all_space 255 l hall, specTokens_all_space l hall]
    · have htok := specTokens_token pre t rest hpre ht hne hrest
      rw [← hl] at htok
      have hlen : t.length ≤ 255 := hshort t (by rw [htok]; exact List.mem_cons_self _ _)
      have hscan := fscanf_s_token 255 pre t rest (by omega) hpre ht hne hrest
      rw [← hl, List.take_of_length_le hlen, List.drop_of_length_le hlen,
        List.nil_append] at hscan
      have hpos : 0 < t.length := List.length_pos.mpr hne
      have hlen2 : l.length = pre.length + t.length + rest.length := by
        rw [hl, List.length_append, List.length_append]
      unfold scanWords
      rw [hscan, htok]
      simp only
      rw [ih rest (by omega)
        (fun u hu => hshort u (by rw [htok]; exact List.mem_cons_of_mem _ hu))]

theorem isspace_fgetc (file : List Nat) (q : Nat) (h : isspace (fgetc file q) = true) :
    ∃ hq : q < file.length, isSpaceByte (file.get ⟨q, hq⟩) = true := by
  by_cases hq : q < file.length
  · refine ⟨hq, ?_⟩
    unfold fgetc at h
    rw [List.get?_eq_get hq] at h
    exact h
  · rw [fgetc_of_le file q (by omega), isspace_EOF] at h
    cases h

/-- The tokens behind a whitespace byte are tokens of the whole file. -/
theorem specTokens_drop_subset (l : List Nat) (k : Nat) (hk : 0 < k)
    (hws : isspace (fgetc l (k - 1)) = true) :
    ∀ w ∈ specTokens (l.drop k), w ∈ specTokens l := by
  obtain ⟨hq, hsp⟩ := isspace_fgetc l (k - 1) hws
  have hsplit : l = l.take (k - 1) ++ l.get ⟨k - 1, hq⟩ :: l.drop k := by
    have h1 := List.take_append_drop (k - 1) l
    have h2 : l.drop (k - 1) = l.get ⟨k - 1, hq⟩ :: l.drop (k - 1 + 1) :=
      List.drop_eq_getElem_cons hq
    have h3 : k - 1 + 1 = k := by omega
    rw [h3] at h2
    rw [← h2]
    exact h1.symm
  intro w hw
  rw [hsplit, specTokens_append_sep _ _ _ hsp]
  exact List.mem_append_right _ hw

/-- The words of a worker are the tokens from its corrected start on, and they are tokens
of the file, when no token of the file is longer than 255 bytes. -/
theorem chunkWords_tokens (file : List Nat) (t_arg : ThreadArg)
    (hshort : ∀ t ∈ specTokens file, t.length ≤ 255) :
    chunkWords file t_arg = specTokens (file.drop (findStart file t_arg.start_offset))
    ∧ ∀ w ∈ chunkWords file t_arg, w ∈ specTokens file := by
  have hsub : ∀ w ∈ specTokens (file.drop (findStart file t_arg.start_offset)),
      w ∈ specTokens file := by
    rcases findStart_stop file t_arg.start_offset with h0 | ⟨hpos, hws⟩
    · rw [h0, List.drop_zero]
      exact fun w hw => hw
    · exact specTokens_drop_subset file _ hpos hws
  have heq : chunkWords file t_arg
      = specTokens (file.drop (findStart file t_arg.start_offset)) := by
    unfold chunkWords
    apply scanWords_eq_specTokens
    · rw [List.length_drop]; omega
    · exact fun t ht => hshort t (hsub t ht)
  refine ⟨heq, ?_⟩
  rw [heq]
  exact hsub

theorem chunkWords_first (file : List Nat) (t_arg : ThreadArg)
    (hshort : ∀ t ∈ specTokens file, t.length ≤ 255) (h0 : t_arg.start_offset = 0) :
    chunkWords file t_arg = specTokens file := by
  rw [(chunkWords_tokens file t_arg hshort).1, h0]
  rfl

/-! ## The nodes of a reachable table -/

theorem mem_entries (ht : HashTable) (e : Entry) :
    e ∈ entries ht ↔ ∃ i, i < HASH_TABLE_SIZE ∧ e ∈ ht.buckets i := by
  unfold entries
  rw [List.mem_flatMap]
  constructor
  · rintro ⟨i, hi, he⟩
    exact ⟨i, List.mem_range.mp hi, he⟩
  · rintro ⟨i, hi, he⟩
    exact ⟨i, List.mem_range.mpr hi, he⟩

theorem sum_nodes_pos_iff (l : List Entry) (w : List Nat) :
    0 < (l.map (fun e => if strcmp_eq e.word w then 1 else 0)).sum
      ↔ ∃ e ∈ l, strcmp_eq e.word w = true := by
  induction l with
  | nil => simp
  | cons e rest ih =>
    rw [List.map_cons, List.sum_cons]
    by_cases he : strcmp_eq e.word w = true
    · rw [if_pos he]
      constructor
      · intro _
        exact ⟨e, List.mem_cons_self e rest, he⟩
      · intro _
        omega
    · rw [if_neg he, Nat.zero_add, ih]
      constructor
      · rintro ⟨e2, h2, h3⟩
        exact ⟨e2, List.mem_cons_of_mem e h2, h3⟩
      · rintro ⟨e2, h2, h3⟩
        rcases List.mem_cons.mp h2 with h4 | h4
        · rw [h4] at h3
          exact absurd h3 he
        · exact ⟨e2, h4, h3⟩

theorem nodes_pos_iff (ht : HashTable) (w : List Nat) :
    0 < nodes ht w ↔ ∃ e ∈ entries ht, strcmp_eq e.word w = true := by
  unfold nodes
  exact sum_nodes_pos_iff (entries ht) w

theorem occurrences_pos_iff (ws : List (List Nat)) (w : List Nat) :
    0 < occurrences ws w ↔ ∃ v ∈ ws, strcmp_eq v w = true := by
  unfold occurrences
  rw [List.length_pos]
  constructor
  · intro h
    obtain ⟨v, hv⟩ := List.exists_mem_of_ne_nil _ h
    rw [List.mem_filter] at hv
    exact ⟨v, hv.1, hv.2⟩
  · rintro ⟨v, hv, hs⟩
    exact List.ne_nil_of_mem (List.mem_filter.mpr ⟨hv, hs⟩)

theorem storedCStr_createHT : StoredCStr createHT := by
  intro i _ e he
  simp [createHT] at he

theorem storedCStr_add_word (ht : HashTable) (v : List Nat) (h : StoredCStr ht) :
    StoredCStr (add_word ht v) := by
  intro i hi e he
  rw [add_word_eq] at he
  by_cases hidx : i = hashFunc v
  · subst hidx
    simp only [Function.update_same] at he
    rcases chainAfter_word_mem v _ e he with hw | ⟨e0, h0, hw⟩
    · rw [hw, cstr_cstr]
    · rw [← hw]
      exact h _ hi e0 h0
  · simp only [Function.update, hidx, dite_false] at he
    exact h i hi e he

theorem storedCStr_foldl (ws : List (List Nat)) (ht : HashTable) (h : StoredCStr ht) :
    StoredCStr (ws.foldl add_word ht) := by
  induction ws generalizing ht with
  | nil => exact h
  | cons v rest ih => exact ih _ (storedCStr_add_word ht v h)

theorem storedCStr_mergeHash (dest src : HashTable) (h : StoredCStr dest) :
    StoredCStr (mergeHash dest src) := by
  rw [mergeHash_eq]
  exact storedCStr_foldl _ dest h

theorem reachable_storedCStr (ht : HashTable) (h : Reachable ht) : StoredCStr ht := by
  induction h with
  | create => exact storedCStr_createHT
  | add ht word _ ih => exact storedCStr_add_word ht word ih
  | merge dest src _ _ ih _ => exact storedCStr_mergeHash dest src ih

theorem reachable_process_chunk (file : List Nat) (t_arg : ThreadArg) :
    Reachable (process_chunk file t_arg) := by
  rw [process_chunk_eq]
  exact reachable_foldl _ _ Reachable.create

theorem reachable_merge_all (ts : List HashTable) (g : HashTable) (hg : Reachable g)
    (hts : ∀ t ∈ ts, Reachable t) : Reachable (ts.foldl mergeHash g) := by
  induction ts generalizing g with
  | nil => exact hg
  | cons t rest ih =>
    rw [List.foldl_cons]
    exact ih _ (Reachable.merge g t hg (hts t (List.mem_cons_self t rest)))
      (fun u hu => hts u (List.mem_cons_of_mem t hu))

theorem reachable_global_table (file : List Nat) (num_threads : Nat) :
    Reachable (global_table file num_threads) := by
  unfold global_table worker_tables
  apply reachable_merge_all _ _ Reachable.create
  intro t ht
  rcases List.mem_map.mp ht with ⟨a, _, rfl⟩
  exact reachable_process_chunk file a

/-- In a reachable table a node holds the byte string `w` exactly when `w` is a C string
and some node holds it as a word. -/
theorem holdsWord_iff (ht : HashTable) (w : List Nat) (h : Reachable ht) :
    holdsWord ht w ↔ cstr w = w ∧ 0 < nodes ht w := by
  have hs := reachable_storedCStr ht h
  rw [nodes_pos_iff]
  unfold holdsWord
  constructor
  · rintro ⟨e, he, hw⟩
    obtain ⟨i, hi, hb⟩ := (mem_entries ht e).mp he
    have hc := hs i hi e hb
    refine ⟨by rw [← hw]; exact hc, e, he, ?_⟩
    rw [strcmp_eq_iff, hw]
  · rintro ⟨hw, e, he, hse⟩
    obtain ⟨i, hi, hb⟩ := (mem_entries ht e).mp he
    have hc := hs i hi e hb
    refine ⟨e, he, ?_⟩
    rw [← hc, (strcmp_eq_iff _ _).mp hse, hw]

theorem nodup_words_of_sum_le_one (l : List Entry)
    (h : ∀ w, (l.map (fun e => if strcmp_eq e.word w then 1 else 0)).sum ≤ 1) :
    (l.map (fun e => e.word)).Nodup := by
  induction l with
  | nil => exact List.nodup_nil
  | cons e rest ih =>
    rw [List.map_cons, List.nodup_cons]
    constructor
    · intro hmem
      rcases List.mem_map.mp hmem with ⟨e2, h2, h3⟩
      have hself : strcmp_eq e.word e.word = true := (strcmp_eq_iff _ _).mpr rfl
      have hpos := (sum_nodes_pos_iff rest e.word).mpr ⟨e2, h2, by rw [h3]; exact hself⟩
      have hle := h e.word
      rw [List.map_cons, List.sum_cons, if_pos hself] at hle
      omega
    · apply ih
      intro w
      have hle := h w
      rw [List.map_cons, List.sum_cons] at hle
      omega

/-- The counter `unique_words` of a reachable table is the number of different words its
nodes hold. -/
theorem unique_words_eq_card (ht : HashTable) (h : Reachable ht) :
    unique_words ht = ((entries ht).map (fun e => e.word)).toFinset.card := by
  have hnd : ((entries ht).map (fun e => e.word)).Nodup := by
    apply nodup_words_of_sum_le_one
    intro w
    exact reachable_oneNodePerWord ht h w
  rw [List.toFinset_card_of_nodup hnd, List.length_map]
  rfl

/-! ## C15: the words of the global table -/

theorem wellPlaced_merge_all (ts : List HashTable) (g : HashTable) (hg : WellPlaced g) :
    WellPlaced (ts.foldl mergeHash g) := by
  induction ts generalizing g with
  | nil => exact hg
  | cons t rest ih => exact ih _ (wellPlaced_mergeHash g t hg)

theorem nodes_merge_all_pos (ts : List HashTable) (g : HashTable) (w : List Nat)
    (hg : WellPlaced g) :
    0 < nodes (ts.foldl mergeHash g) w ↔ 0 < nodes g w ∨ ∃ t ∈ ts, 0 < nodes t w := by
  induction ts generalizing g with
  | nil => simp
  | cons t rest ih =>
    rw [List.foldl_cons, ih _ (wellPlaced_mergeHash g t hg), nodes_mergeHash g t w hg]
    constructor
    · rintro (h | ⟨u, hu, hpos⟩)
      · by_cases h0 : 0 < nodes g w
        · left; exact h0
        · right
          refine ⟨t, List.mem_cons_self t rest, ?_⟩
          by_contra hc
          rw [if_neg (fun hh => hc hh.2)] at h
          omega
      · right; exact ⟨u, List.mem_cons_of_mem t hu, hpos⟩
    · rintro (h | ⟨u, hu, hpos⟩)
      · left; omega
      · rcases List.mem_cons.mp hu with h1 | h1
        · left
          rw [h1] at hpos
          by_cases h0 : nodes g w = 0
          · rw [if_pos ⟨h0, hpos⟩]; omega
          · omega
        · right; exact ⟨u, h1, hpos⟩

/-- A node of the global table holds the word `w` exactly when some worker read `w`. -/
theorem nodes_global_pos (file : List Nat) (num_threads : Nat) (w : List Nat) :
    0 < nodes (global_table file num_threads) w
      ↔ ∃ t_arg ∈ thread_args file.length num_threads,
          0 < occurrences (chunkWords file t_arg) w := by
  unfold global_table worker_tables
  rw [nodes_merge_all_pos _ _ _ wellPlaced_createHT, nodes_createHT]
  constructor
  · rintro (h | ⟨t, ht, hpos⟩)
    · omega
    · rcases List.mem_map.mp ht with ⟨a, ha, rfl⟩
      rw [nodes_process_chunk] at hpos
      refine ⟨a, ha, ?_⟩
      by_contra hc
      rw [if_neg hc] at hpos
      omega
  · rintro ⟨a, ha, hpos⟩
    right
    refine ⟨process_chunk file a, List.mem_map.mpr ⟨a, ha, rfl⟩, ?_⟩
    rw [nodes_process_chunk, if_pos hpos]
    omega

/-- With at least one worker and no token longer than 255 bytes, a node of the global table
holds the word `w` exactly when `w` is, as a C string, a token of the file. -/
theorem nodes_global_pos_iff_token (file : List Nat) (num_threads : Nat) (w : List Nat)
    (hN : 1 ≤ num_threads) (hshort : ∀ t ∈ specTokens file, t.length ≤ 255) :
    0 < nodes (global_table file num_threads) w
      ↔ ∃ t ∈ specTokens file, strcmp_eq t w = true := by
  rw [nodes_global_pos]
  constructor
  · rintro ⟨a, _, hpos⟩
    obtain ⟨v, hv, hs⟩ := (occurrences_pos_iff _ _).mp hpos
    exact ⟨v, (chunkWords_tokens file a hshort).2 v hv, hs⟩
  · rintro ⟨t, ht, hs⟩
    have h0 := thread_args_getElem? file.length num_threads 0 (by omega)
    refine ⟨_, List.getElem?_mem h0, ?_⟩
    rw [chunkWords_first file _ hshort (by simp)]
    exact (occurrences_pos_iff _ _).mpr ⟨t, ht, hs⟩

/-- The byte strings held by the nodes of the global table are the tokens of the file cut at
their first NUL byte. -/
theorem global_holdsWord_iff (file : List Nat) (num_threads : Nat) (w : List Nat)
    (hN : 1 ≤ num_threads) (hshort : ∀ t ∈ specTokens file, t.length ≤ 255) :
    holdsWord (global_table file num_threads) w ↔ ∃ t ∈ specTokens file, cstr t = w := by
  rw [holdsWord_iff _ _ (reachable_global_table file num_threads),
    nodes_global_pos_iff_token file num_threads w hN hshort]
  constructor
  · rintro ⟨hw, t, ht, hs⟩
    exact ⟨t, ht, by rw [(strcmp_eq_iff _ _).mp hs, hw]⟩
  · rintro ⟨t, ht, hw⟩
    refine ⟨by rw [← hw, cstr_cstr], t, ht, ?_⟩
    rw [strcmp_eq_iff, ← hw, cstr_cstr]

theorem global_unique_words (file : List Nat) (num_threads : Nat)
    (hN : 1 ≤ num_threads) (hshort : ∀ t ∈ specTokens file, t.length ≤ 255) :
    unique_words (global_table file num_threads) = distinctWords (specTokens file) := by
  rw [unique_words_eq_card _ (reachable_global_table file num_threads)]
  unfold distinctWords
  congr 1
  ext w
  rw [List.mem_toFinset, List.mem_toFinset, List.mem_map, List.mem_map]
  exact global_holdsWord_iff file num_threads w hN hshort

theorem mem_splitOnP_subset (p : Nat → Bool) (l t : List Nat) (ht : t ∈ l.splitOnP p) :
    ∀ b ∈ t, b ∈ l := by
  induction l generalizing t with
  | nil =>
    rw [List.splitOnP_nil] at ht
    intro b hb
    rw [List.mem_singleton.mp ht] at hb
    cases hb
  | cons x xs ih =>
    rw [List.splitOnP_cons] at ht
    by_cases hx : p x = true
    · rw [if_pos hx] at ht
      rcases List.mem_cons.mp ht with h | h
      · intro b hb
        rw [h] at hb
        cases hb
      · exact fun b hb => List.mem_cons_of_mem x (ih t h b hb)
    · rw [if_neg hx] at ht
      cases hs : xs.splitOnP p with
      | nil => exact absurd hs (List.splitOnP_ne_nil p xs)
      | cons hd tl =>
        rw [hs, List.modifyHead_cons] at ht
        rcases List.mem_cons.mp ht with h | h
        · intro b hb
          rw [h] at hb
          rcases List.mem_cons.mp hb with h1 | h1
          · rw [h1]; exact List.mem_cons_self x xs
          · exact List.mem_cons_of_mem x
              (ih hd (by rw [hs]; exact List.mem_cons_self hd tl) b h1)
        · exact fun b hb => List.mem_cons_of_mem x
            (ih t (by rw [hs]; exact List.mem_cons_of_mem hd h) b hb)

theorem cstr_of_no_nul (t : List Nat) (h : ∀ b ∈ t, b ≠ 0) : cstr t = t := by
  unfold cstr
  rw [List.takeWhile_eq_self_iff]
  intro b hb
  simpa using h b hb

theorem cstr_token_of_no_nul (file t : List Nat) (h : ∀ b ∈ file, b ≠ 0)
    (ht : t ∈ specTokens file) : cstr t = t := by
  apply cstr_of_no_nul
  intro b hb
  unfold specTokens at ht
  exact h b (mem_splitOnP_subset isSpaceByte file t (List.mem_filter.mp ht).1 b hb)

/-- C15 (as stated, refuted): the words of the global table are claimed to be the distinct
tokens of the file. The file of the three bytes `a`, NUL, `b` is one token of three bytes;
with one worker the global table holds the word `a`, which is not a token of the file, and
holds no node for the token itself: `add_word` takes its argument as a C string. -/
theorem global_word_cut_at_nul :
    specTokens [97, 0, 98] = [[97, 0, 98]]
    ∧ holdsWord (global_table [97, 0, 98] 1) [97]
    ∧ ¬ holdsWord (global_table [97, 0, 98] 1) [97, 0, 98] := by
  have hshort : ∀ t ∈ specTokens [97, 0, 98], t.length ≤ 255 := by decide
  refine ⟨by decide, ?_, ?_⟩
  · exact (global_holdsWord_iff [97, 0, 98] 1 [97] (by decide) hshort).mpr
      ⟨[97, 0, 98], by decide, by decide⟩
  · intro h
    obtain ⟨t, ht, hc⟩ := (global_holdsWord_iff [97, 0, 98] 1 [97, 0, 98] (by decide) hshort).mp h
    have hall : ∀ t ∈ specTokens [97, 0, 98], cstr t ≠ [97, 0, 98] := by decide
    exact hall t ht hc

/-- C15 (as amended): for every file whose tokens are at most 255 bytes long and every
`num_threads ≥ 1`, the byte strings held by the nodes of the final global table are the
tokens of the file taken as C strings, each cut at its first NUL byte, and the counter
`unique_words` that `main` reports is the number of distinct such strings. For a file with
no NUL byte these are the tokens themselves: the words of the table are the distinct tokens
and `unique_words` is their number. -/
theorem global_words_are_tokens_as_cstrings (file : List Nat) (num_threads : Nat)
    (hN : 1 ≤ num_threads) (hshort : ∀ t ∈ specTokens file, t.length ≤ 255) :
    (∀ w, holdsWord (global_table file num_threads) w ↔ ∃ t ∈ specTokens file, cstr t = w)
    ∧ unique_words (global_table file num_threads) = distinctWords (specTokens file)
    ∧ ((∀ b ∈ file, b ≠ 0) →
        (∀ w, holdsWord (global_table file num_threads) w ↔ w ∈ specTokens file)
        ∧ unique_words (global_table file num_threads) = (specTokens file).toFinset.card) := by
  refine ⟨fun w => global_holdsWord_iff file num_threads w hN hshort,
    global_unique_words file num_threads hN hshort, ?_⟩
  intro hnul
  have hmap : (specTokens file).map cstr = specTokens file := by
    conv_rhs => rw [← List.map_id (specTokens file)]
    apply List.map_congr_left
    intro t ht
    exact cstr_token_of_no_nul file t hnul ht
  constructor
  · intro w
    rw [global_holdsWord_iff file num_threads w hN hshort]
    constructor
    · rintro ⟨t, ht, hw⟩
      rw [← hw, cstr_token_of_no_nul file t hnul ht]
      exact ht
    · intro hw
      exact ⟨w, hw, cstr_token_of_no_nul file w hnul hw⟩
  · rw [global_unique_words file num_threads hN hshort]
    unfold distinctWords
    rw [hmap]

/-- C15 (as amended) on the file `the cat sat on the mat` with one worker: the file has no
NUL byte and five distinct tokens, and `unique_words` is 5. -/
theorem global_words_are_tokens_as_cstrings_witness :
    unique_words (global_table (bytes "the cat sat on the mat") 1)
        = (specTokens (bytes "the cat sat on the mat")).toFinset.card
    ∧ (specTokens (bytes "the cat sat on the mat")).toFinset.card = 5 :=
  ⟨((global_words_are_tokens_as_cstrings (bytes "the cat sat on the mat") 1 (by decide)
      (by decide)).2.2 (by decide)).2, by decide⟩

end WordFreq
